import Mathlib

/-!
Verification of the P2P overlay network core against its specification.

The definitions below are a shallow embedding of the C++ sources:
`TopologyManager`, `MessageRouter`, `MessageHandler`, `DataExchange`,
`ReliableMessaging` and `DynamicNodeManager`.  `std::map` / `std::set`
containers are modelled as association lists ordered by key (`mapInsert`
keeps the key order, `std::map::erase` becomes a key filter), machine
integers become `Nat` (with explicit modulus where wrap-around matters),
wall-clock times become `Nat` parameters, and callback invocations become
explicit event lists returned by the operations.  Loops whose termination
the C++ code takes for granted receive an explicit fuel argument that is
proved (or chosen) large enough to never run out.
-/

namespace P2P

/-! ### Association-list maps (model of `std::map`) -/

/-- Ordered insert-or-assign, the model of `map[k] = v`. -/
def mapInsert {α : Type} : List (Nat × α) → Nat → α → List (Nat × α)
  | [], k, v => [(k, v)]
  | (k2, v2) :: rest, k, v =>
    if k < k2 then (k, v) :: (k2, v2) :: rest
    else if k = k2 then (k, v) :: rest
    else (k2, v2) :: mapInsert rest k v

/-- Key removal, the model of `map.erase(k)` (keys are unique in `std::map`). -/
def mapErase {α : Type} (m : List (Nat × α)) (k : Nat) : List (Nat × α) :=
  m.filter (fun p => decide (p.1 ≠ k))

/-- Key membership, the model of `map.find(k) != map.end()`. -/
def mapMem {α : Type} (m : List (Nat × α)) (k : Nat) : Bool :=
  (List.lookup k m).isSome

theorem lookup_mapInsert_self {α : Type} (m : List (Nat × α)) (k : Nat) (v : α) :
    List.lookup k (mapInsert m k v) = some v := by
  induction m with
  | nil => simp [mapInsert, List.lookup]
  | cons p rest ih =>
    obtain ⟨k2, v2⟩ := p
    by_cases h1 : k < k2
    · simp [mapInsert, h1, List.lookup]
    · by_cases h2 : k = k2
      · simp [mapInsert, h1, h2, List.lookup]
      · have hne : (k == k2) = false := by simp [h2]
        simp [mapInsert, h1, h2, List.lookup, hne, ih]

theorem lookup_mapInsert_ne {α : Type} (m : List (Nat × α)) (k k' : Nat) (v : α)
    (h : k' ≠ k) : List.lookup k' (mapInsert m k v) = List.lookup k' m := by
  have hne : (k' == k) = false := by simp [h]
  induction m with
  | nil => simp [mapInsert, List.lookup, hne]
  | cons p rest ih =>
    obtain ⟨k2, v2⟩ := p
    by_cases h1 : k < k2
    · simp [mapInsert, h1, List.lookup, hne]
    · by_cases h2 : k = k2
      · subst h2
        simp [mapInsert, h1, List.lookup, hne]
      · simp [mapInsert, h1, h2, List.lookup, ih]

theorem lookup_mapErase_self {α : Type} (m : List (Nat × α)) (k : Nat) :
    List.lookup k (mapErase m k) = none := by
  induction m with
  | nil => simp [mapErase]
  | cons p rest ih =>
    obtain ⟨k2, v2⟩ := p
    by_cases h : k2 = k
    · simpa [mapErase, h] using ih
    · have hne : (k == k2) = false := by
        rw [beq_eq_false_iff_ne]
        exact fun hh => h hh.symm
      simpa [mapErase, h, List.lookup, hne] using ih

theorem lookup_mapErase_ne {α : Type} (m : List (Nat × α)) (k k' : Nat) (h : k' ≠ k) :
    List.lookup k' (mapErase m k) = List.lookup k' m := by
  induction m with
  | nil => simp [mapErase]
  | cons p rest ih =>
    obtain ⟨k2, v2⟩ := p
    by_cases h2 : k2 = k
    · subst h2
      have hne : (k' == k2) = false := by simp [h]
      simpa [mapErase, List.lookup, hne] using ih
    · by_cases h3 : k' = k2
      · simp [mapErase, h2, List.lookup, h3]
      · have hne3 : (k' == k2) = false := by simp [h3]
        simpa [mapErase, h2, List.lookup, hne3] using ih

/-! ### Bytes (little-endian fixed-width integers, model of `memcpy` of scalars) -/

/-- The `w` little-endian bytes of `n`, the model of `memcpy(dst, &n, w)`. -/
def leBytes : Nat → Nat → List Nat
  | 0, _ => []
  | w + 1, n => (n % 256) :: leBytes w (n / 256)

/-- Value read back from little-endian bytes, the model of `memcpy(&n, src, w)`. -/
def leValue : List Nat → Nat
  | [] => 0
  | b :: bs => b + 256 * leValue bs

theorem leBytes_length (w n : Nat) : (leBytes w n).length = w := by
  induction w generalizing n with
  | zero => simp [leBytes]
  | succ w ih => simp [leBytes, ih]

theorem leValue_leBytes (w n : Nat) : leValue (leBytes w n) = n % 256 ^ w := by
  induction w generalizing n with
  | zero => simp [leBytes, leValue, Nat.mod_one]
  | succ w ih =>
    have hpow : 256 ^ (w + 1) = 256 * 256 ^ w := by ring
    calc leValue (leBytes (w + 1) n)
        = n % 256 + 256 * (n / 256 % 256 ^ w) := by simp [leBytes, leValue, ih]
      _ = n % 256 ^ (w + 1) := by rw [hpow, Nat.mod_mul]

theorem leValue_leBytes_of_lt {w n : Nat} (h : n < 256 ^ w) :
    leValue (leBytes w n) = n := by
  rw [leValue_leBytes, Nat.mod_eq_of_lt h]

/-! ### DataExchange: chunk split and reassembly (claim C2)

`DataExchange::splitData` / `DataExchange::reassembleData` in
`src/DataExchange.cpp`.  The receiver's `receivedChunks_[transferID]` map
(`std::map<uint32_t, DataChunk>`) is an association list keyed by
sequence number. -/

structure DataChunk where
  chunkID : Nat
  sequenceNumber : Nat
  totalChunks : Nat
  data : List Nat
  isLastChunk : Bool
deriving Repr, DecidableEq

/-- Model of `DataExchange::splitData`:
`chunkCount = static_cast<uint32_t>((total + cs - 1) / cs)` (hence `% 2^32`)
chunks, chunk `i` carrying `data[i*cs .. i*cs + min(cs, total - i*cs))`. -/
def splitData (chunkSize : Nat) (data : List Nat) (transferID : Nat) : List DataChunk :=
  let totalSize := data.length
  let chunkCount := ((totalSize + chunkSize - 1) / chunkSize) % 2 ^ 32
  (List.range chunkCount).map fun i =>
    { chunkID := transferID
      sequenceNumber := i
      totalChunks := chunkCount
      isLastChunk := decide (i = chunkCount - 1)
      data := (data.drop (i * chunkSize)).take (min chunkSize (totalSize - i * chunkSize)) }

/-- The reassembly loop of `DataExchange::reassembleData`: concatenate the
chunks with sequence numbers `0 .. expected-1`, failing on a missing one. -/
def collectChunks (chunks : List (Nat × DataChunk)) : Nat → Option (List Nat)
  | 0 => some []
  | n + 1 =>
    match collectChunks chunks n, List.lookup n chunks with
    | some buf, some c => some (buf ++ c.data)
    | _, _ => none

/-- Model of `DataExchange::reassembleData` on the per-transfer chunk map:
`none` models returning `false` (nothing published to `completedData_`). -/
def reassembleData (chunks : List (Nat × DataChunk)) : Option (List Nat) :=
  match chunks with
  | [] => none
  | (_, c0) :: _ =>
    if chunks.length < c0.totalChunks then none
    else collectChunks chunks c0.totalChunks

/-- The receiver's map after `receivedChunks_[id][c.sequenceNumber] = c` for
each chunk in arrival order. -/
def buildChunkMap (cs : List DataChunk) : List (Nat × DataChunk) :=
  cs.foldl (fun m c => mapInsert m c.sequenceNumber c) []

/-! ### MessageHandler node-list serialization (claim C10)

`MessageHandler::serializeNodeList` / `deserializeNodeList` in
`src/DataExchange.cpp` (MessageHandler section). -/

/-- Model of `MessageHandler::serializeNodeList`: 4-byte `uint32` count
(`nodes.size()` cast, hence `% 2^32`) followed by `count` 8-byte ids. -/
def serializeNodeList (nodes : List Nat) : List Nat :=
  let count := nodes.length % 2 ^ 32
  leBytes 4 count ++ ((nodes.take count).map (leBytes 8)).flatten

/-- Model of `MessageHandler::deserializeNodeList`: empty on a buffer shorter
than 4 bytes or shorter than the declared `4 + count * 8` bytes. -/
def deserializeNodeList (data : List Nat) : List Nat :=
  if data.length < 4 then []
  else
    let count := leValue (data.take 4)
    if data.length < 4 + count * 8 then []
    else (List.range count).map fun i => leValue ((data.drop (4 + i * 8)).take 8)

/-! ### Message envelope (`Common.h`) -/

structure Message where
  type : Nat
  senderID : Nat
  receiverID : Nat
  payload : List Nat
  timestamp : Nat
deriving Repr, DecidableEq

/-- `MessageType::HEARTBEAT` wire tag. -/
def HEARTBEAT : Nat := 4

/-! ### ReliableMessaging (claims C1 and C9)

`ReliableMessaging` in the sources: `pendingMessages_` is a
`std::map<uint64_t, ReliableMessage>`; the `onMessageDelivered_`,
`onMessageFailed_` callbacks and `sendWithRetry` transport hand-offs are
recorded as event lists. -/

inductive AckStatus
  | PENDING
  | ACKNOWLEDGED
  | TIMEOUT
  | FAILED
deriving Repr, DecidableEq

structure ReliableMessage where
  messageID : Nat
  message : Message
  destinationID : Nat
  ackStatus : AckStatus
  retryCount : Nat
  sendTime : Nat
  lastRetry : Nat
deriving Repr, DecidableEq

structure ReliableState where
  pendingMessages : List (Nat × ReliableMessage)
  acknowledgedMessages : Nat
  failedMessages : Nat
  /-- `onMessageDelivered_(messageID, senderID)` invocations, in order. -/
  deliveredEvents : List (Nat × Nat)
  /-- `onMessageFailed_(messageID, destinationID)` invocations, in order. -/
  failedEvents : List (Nat × Nat)
  /-- message ids handed to `sendWithRetry` by the retry loop, in order. -/
  resendEvents : List Nat
deriving Repr, DecidableEq

/-- Model of `ReliableMessaging::acknowledgeMessage`: if the id is in the
pending table (whatever its status), set it Acknowledged, bump the counter,
fire `onMessageDelivered_`, return true; otherwise return false. -/
def acknowledgeMessage (st : ReliableState) (messageID senderID : Nat) :
    ReliableState × Bool :=
  match List.lookup messageID st.pendingMessages with
  | some r =>
      ({ st with
          pendingMessages := mapInsert st.pendingMessages messageID
            { r with ackStatus := .ACKNOWLEDGED }
          acknowledgedMessages := st.acknowledgedMessages + 1
          deliveredEvents := st.deliveredEvents ++ [(messageID, senderID)] }, true)
  | none => (st, false)

/-- Model of `ReliableMessaging::markMessageFailed`: the record (found by id)
is marked Failed, `onMessageFailed_` fires with its destination, and the
record is erased; a missing id is a no-op. -/
def markMessageFailed (st : ReliableState) (mid : Nat) : ReliableState :=
  match List.lookup mid st.pendingMessages with
  | some r =>
      { st with
          pendingMessages := mapErase st.pendingMessages mid
          failedMessages := st.failedMessages + 1
          failedEvents := st.failedEvents ++ [(mid, r.destinationID)] }
  | none => st

/-- The stale test `duration_cast<seconds>(now - lastRetry).count() >= timeout`
(signed arithmetic, hence the cast through `Int`). -/
def retryDue (now timeout lastRetry : Nat) : Prop :=
  (timeout : Int) ≤ (now : Int) - (lastRetry : Int)

instance (now timeout lastRetry : Nat) : Decidable (retryDue now timeout lastRetry) := by
  unfold retryDue
  infer_instance

/-- One entry of the re-send loop of `retryPendingMessages`: re-read the
record, bump `retryCount`, refresh `lastRetry`, and hand the (old copy of
the) message to `sendWithRetry`, ignoring the transport result. -/
def retryStep (now : Nat) (s : ReliableState) (mid : Nat) : ReliableState :=
  match List.lookup mid s.pendingMessages with
  | some r =>
      { s with
          pendingMessages := mapInsert s.pendingMessages mid
            { r with retryCount := r.retryCount + 1, lastRetry := now }
          resendEvents := s.resendEvents ++ [mid] }
  | none => s

/-- The `toRetry` collection test of `retryPendingMessages`: not acknowledged,
stale, and still under the retry budget. -/
def retryCond (now timeout maxRetries : Nat) (r : ReliableMessage) : Prop :=
  r.ackStatus ≠ .ACKNOWLEDGED ∧ retryDue now timeout r.lastRetry ∧
    r.retryCount < maxRetries

instance (now timeout maxRetries : Nat) (r : ReliableMessage) :
    Decidable (retryCond now timeout maxRetries r) := by
  unfold retryCond
  infer_instance

/-- The `toFail` collection test: not acknowledged, stale, budget exhausted. -/
def failCond (now timeout maxRetries : Nat) (r : ReliableMessage) : Prop :=
  r.ackStatus ≠ .ACKNOWLEDGED ∧ retryDue now timeout r.lastRetry ∧
    ¬ r.retryCount < maxRetries

instance (now timeout maxRetries : Nat) (r : ReliableMessage) :
    Decidable (failCond now timeout maxRetries r) := by
  unfold failCond
  infer_instance

/-- Model of `ReliableMessaging::retryPendingMessages`: one pass collects the
non-acknowledged stale records into `toRetry` (`retryCount < maxRetries`) and
`toFail` (otherwise); the collected ids are then re-sent resp. failed. -/
def retryPendingMessages (st : ReliableState) (now timeout maxRetries : Nat) :
    ReliableState :=
  let toRetry := (st.pendingMessages.filter fun p =>
      decide (retryCond now timeout maxRetries p.2)).map Prod.fst
  let toFail := (st.pendingMessages.filter fun p =>
      decide (failCond now timeout maxRetries p.2)).map Prod.fst
  let st1 := toRetry.foldl (retryStep now) st
  toFail.foldl markMessageFailed st1

/-- A sequence of retry sweeps at the given `(now, timeout)` instants. -/
def runRetrySweeps (maxRetries : Nat) (params : List (Nat × Nat))
    (st : ReliableState) : ReliableState :=
  params.foldl (fun s p => retryPendingMessages s p.1 p.2 maxRetries) st

/-! ### MessageHandler heartbeat handling (claim C6)

`MessageHandler::handleHeartbeat` together with `Node::updateLastSeen` and
`MessageHandler::createHeartbeat`.  The surrounding state records the local
node's own last-seen timestamp (`Node::lastSeen_`), the per-peer last-seen
records kept elsewhere (`DynamicNodeManager::nodeRegistry_`), and the
messages handed to `NetworkManager::sendMessageToPeer`. -/

structure HeartbeatCtx where
  selfID : Nat
  /-- `Node::lastSeen_`, the local node's own liveness timestamp. -/
  selfLastSeen : Nat
  /-- per-peer last-seen records (id ↦ timestamp). -/
  peerLastSeen : List (Nat × Nat)
  /-- `(destination, message)` pairs handed to the transport, in order. -/
  sent : List (Nat × Message)
deriving Repr, DecidableEq

/-- Model of `MessageHandler::createHeartbeat`. -/
def createHeartbeat (selfID targetNodeID now : Nat) : Message :=
  { type := HEARTBEAT, senderID := selfID, receiverID := targetNodeID,
    payload := [], timestamp := now }

/-- Model of `MessageHandler::handleHeartbeat`: calls the local node's
`updateLastSeen()` (no argument: it refreshes `Node::lastSeen_` itself) and
replies with a heartbeat sent to the message's sender. -/
def handleHeartbeat (ctx : HeartbeatCtx) (msg : Message) (now : Nat) : HeartbeatCtx :=
  { ctx with
      selfLastSeen := now
      sent := ctx.sent ++ [(msg.senderID, createHeartbeat ctx.selfID msg.senderID now)] }

/-! ### DynamicNodeManager failure detection (claim C8)

`DynamicNodeManager::detectFailedNodes`, `incrementFailureCount`,
`resetFailureCount`, `shouldRemoveNode` and the registry side of
`removeNodeForced` in the sources.  `nodeRegistry_` is a
`std::map<NodeID, NodeInfo>`; the `onNodeFailed_` callback becomes an event
list. -/

inductive NodeState
  | JOINING
  | ACTIVE
  | LEAVING
  | FAILED
  | UNKNOWN
deriving Repr, DecidableEq

structure NodeInfo where
  nodeID : Nat
  host : String
  port : Nat
  state : NodeState
  lastSeen : Nat
  joinTime : Nat
  failureCount : Nat
deriving Repr, DecidableEq

/-- The stale test `duration_cast<seconds>(now - lastSeen).count() > timeout`
(strict, signed). -/
def nodeStale (now timeout lastSeen : Nat) : Prop :=
  (timeout : Int) < (now : Int) - (lastSeen : Int)

instance (now timeout lastSeen : Nat) : Decidable (nodeStale now timeout lastSeen) := by
  unfold nodeStale
  infer_instance

/-- The in-lock sweep of `detectFailedNodes`: each Active record is either
bumped (stale) or reset (fresh); a bumped record whose count reaches 3
(`shouldRemoveNode`) is collected for removal. -/
def detectSweep (now timeout : Nat) :
    List (Nat × NodeInfo) → List (Nat × NodeInfo) × List Nat
  | [] => ([], [])
  | (id, info) :: rest =>
    let (rest', failed) := detectSweep now timeout rest
    if info.state ≠ NodeState.ACTIVE then ((id, info) :: rest', failed)
    else if nodeStale now timeout info.lastSeen then
      let info' := { info with failureCount := info.failureCount + 1 }
      if 3 ≤ info'.failureCount then ((id, info') :: rest', id :: failed)
      else ((id, info') :: rest', failed)
    else ((id, { info with failureCount := 0 }) :: rest', failed)

/-- The registry effect of `removeNodeForced` on one collected id: the record
is found, marked `FAILED`, `onNodeFailed_` fires, and the record is erased.
The pair accumulates `(registry, onNodeFailed events)`. -/
def removeForcedStep (acc : List (Nat × NodeInfo) × List Nat) (id : Nat) :
    List (Nat × NodeInfo) × List Nat :=
  match List.lookup id acc.1 with
  | some _ => (mapErase acc.1 id, acc.2 ++ [id])
  | none => acc

/-- Model of `DynamicNodeManager::detectFailedNodes`: the sweep followed by
`removeNodeForced` on every collected id.  Returns the new registry and the
ids for which `onNodeFailed_` fired. -/
def detectFailedNodes (now timeout : Nat) (reg : List (Nat × NodeInfo)) :
    List (Nat × NodeInfo) × List Nat :=
  let (reg', failed) := detectSweep now timeout reg
  failed.foldl removeForcedStep (reg', [])

theorem lookup_map_value {α β : Type} (f : α → β) (l : List (Nat × α)) (k : Nat) :
    List.lookup k (l.map fun p => (p.1, f p.2)) = (List.lookup k l).map f := by
  induction l with
  | nil => simp [List.lookup]
  | cons p rest ih =>
    obtain ⟨k2, v2⟩ := p
    by_cases h : k = k2
    · subst h
      simp [List.lookup]
    · have hne : (k == k2) = false := by simp [h]
      simp [List.lookup, hne, ih]

theorem lookup_some_mem {α : Type} {l : List (Nat × α)} {k : Nat} {v : α}
    (h : List.lookup k l = some v) : (k, v) ∈ l := by
  induction l with
  | nil => simp [List.lookup] at h
  | cons p rest ih =>
    obtain ⟨k2, v2⟩ := p
    by_cases hk : k = k2
    · subst hk
      simp [List.lookup] at h
      simp [h]
    · have hne : (k == k2) = false := by simp [hk]
      simp only [List.lookup, hne] at h
      exact List.mem_cons_of_mem _ (ih h)

theorem value_eq_of_lookup_of_mem {α : Type} {l : List (Nat × α)}
    (hnd : (l.map Prod.fst).Nodup) {k : Nat} {v w : α}
    (h : List.lookup k l = some v) (hm : (k, w) ∈ l) : w = v := by
  induction l with
  | nil => simp at hm
  | cons p rest ih =>
    obtain ⟨k2, v2⟩ := p
    simp only [List.map_cons, List.nodup_cons] at hnd
    by_cases hk : k = k2
    · subst hk
      simp only [List.lookup, beq_self_eq_true] at h
      rcases List.mem_cons.mp hm with h1 | h1
      · cases h1
        cases h
        rfl
      · exact absurd (List.mem_map_of_mem Prod.fst h1) hnd.1
    · have hne : (k == k2) = false := by simp [hk]
      simp only [List.lookup, hne] at h
      rcases List.mem_cons.mp hm with h1 | h1
      · cases h1
        exact absurd rfl hk
      · exact ih hnd.2 h h1

theorem lookup_isSome_of_mem {α : Type} {l : List (Nat × α)} {k : Nat} {v : α}
    (h : (k, v) ∈ l) : (List.lookup k l).isSome := by
  induction l with
  | nil => simp at h
  | cons p rest ih =>
    obtain ⟨k2, v2⟩ := p
    by_cases hk : k = k2
    · subst hk
      simp [List.lookup]
    · have hne : (k == k2) = false := by simp [hk]
      simp only [List.lookup, hne]
      rcases List.mem_cons.mp h with h1 | h1
      · cases h1
        exact absurd rfl hk
      · exact ih h1

/-! ### TopologyManager (claims C3 and C7)

`TopologyManager` in the sources: `nodeRegistry_` is a
`std::map<NodeID, NetworkAddress>`, `adjacencyList_` a
`std::map<NodeID, std::set<NodeID>>`; both become key-ordered association
lists, a neighbour set becomes an ordered duplicate-free list. -/

structure NetworkAddress where
  host : String
  port : Nat
deriving Repr, DecidableEq

structure Topo where
  nodeRegistry : List (Nat × NetworkAddress)
  adjacencyList : List (Nat × List Nat)
deriving Repr, DecidableEq

/-- `adjacencyList_.find(v)`: the neighbour set, empty when absent. -/
def neighborsOf (adj : List (Nat × List Nat)) (v : Nat) : List Nat :=
  (List.lookup v adj).getD []

def adjSet (t : Topo) (v : Nat) : List Nat := neighborsOf t.adjacencyList v

/-- `std::set::insert` on an ordered duplicate-free list. -/
def setInsert (x : Nat) : List Nat → List Nat
  | [] => [x]
  | y :: ys => if x < y then x :: y :: ys else if x = y then y :: ys else y :: setInsert x ys

/-- `std::set::erase`: the element is removed outright. -/
def setErase (x : Nat) (s : List Nat) : List Nat :=
  s.filter fun y => decide (y ≠ x)

/-- Model of `TopologyManager::addNode`: fails on a registered id, otherwise
registers the address and ASSIGNS an empty adjacency entry
(`adjacencyList_[nodeID] = {}` overwrites any existing entry). -/
def addNode (t : Topo) (nodeID : Nat) (address : NetworkAddress) : Bool × Topo :=
  if mapMem t.nodeRegistry nodeID then (false, t)
  else
    (true,
     { nodeRegistry := mapInsert t.nodeRegistry nodeID address
       adjacencyList := mapInsert t.adjacencyList nodeID [] })

/-- `adjacencyList_[a].insert(b)`: `operator[]` default-constructs an empty
set for an absent key. -/
def adjInsert (adj : List (Nat × List Nat)) (a b : Nat) : List (Nat × List Nat) :=
  mapInsert adj a (setInsert b (neighborsOf adj a))

/-- Model of `TopologyManager::addEdge` (private helper): self-loops are
ignored, otherwise both directions are inserted. -/
def addEdge (t : Topo) (a b : Nat) : Topo :=
  if a = b then t
  else { t with adjacencyList := adjInsert (adjInsert t.adjacencyList a b) b a }

/-- One direction of `removeEdge`: erase `b` from `a`'s set when `a` has an
entry. -/
def adjEraseNbr (adj : List (Nat × List Nat)) (a b : Nat) : List (Nat × List Nat) :=
  match List.lookup a adj with
  | some s => mapInsert adj a (setErase b s)
  | none => adj

/-- Model of `TopologyManager::removeEdge` (private helper). -/
def removeEdge (t : Topo) (a b : Nat) : Topo :=
  { t with adjacencyList := adjEraseNbr (adjEraseNbr t.adjacencyList a b) b a }

/-- Model of `TopologyManager::removeNodeFromGraph`: drop the registry entry,
the adjacency entry, and the id from every other node's set. -/
def removeNodeFromGraph (t : Topo) (nodeID : Nat) : Topo :=
  { nodeRegistry := mapErase t.nodeRegistry nodeID
    adjacencyList := (mapErase t.adjacencyList nodeID).map fun p =>
      (p.1, setErase nodeID p.2) }

/-- Model of `TopologyManager::removeNode`. -/
def removeNode (t : Topo) (nodeID : Nat) : Bool × Topo :=
  if mapMem t.nodeRegistry nodeID then (true, removeNodeFromGraph t nodeID)
  else (false, t)

/-- Model of `TopologyManager::validateTopology`: drop adjacency entries whose
key is not registered. -/
def validateTopology (t : Topo) : Topo :=
  { t with adjacencyList := t.adjacencyList.filter fun p => mapMem t.nodeRegistry p.1 }

def getAllNodeIDs (t : Topo) : List Nat := t.nodeRegistry.map Prod.fst

/-- Model of `TopologyManager::hasPathDFS` (fuel-bounded recursion; the C++
version recurses on the by-reference visited set).  Returns found-flag and the
visited set.  Note the early `from == to` return happens right after `from`
is inserted. -/
def hasPathDFS (adj : List (Nat × List Nat)) :
    Nat → Nat → Nat → List Nat → Bool × List Nat
  | 0, _, _, visited => (false, visited)
  | fuel + 1, frm, tgt, visited =>
    let visited1 := setInsert frm visited
    if frm = tgt then (true, visited1)
    else
      (neighborsOf adj frm).foldl
        (fun (acc : Bool × List Nat) n =>
          if acc.1 then acc
          else if n ∈ acc.2 then acc
          else hasPathDFS adj fuel n tgt acc.2)
        (false, visited1)

def dfsFuel (t : Topo) : Nat :=
  t.nodeRegistry.length + t.adjacencyList.length +
    ((t.adjacencyList.map Prod.snd).flatten).length + 1

/-- Model of `TopologyManager::isTopologyConnected`: empty or singleton
registries are connected; otherwise DFS from the first registered node and
compare the visited count with the registry size.  (The DFS is started with
`from == to`, so it returns immediately with one visited node — the C++
behaviour is preserved.) -/
def isTopologyConnected (t : Topo) : Bool :=
  match t.nodeRegistry with
  | [] => true
  | (start, _) :: rest =>
    if rest.isEmpty then true
    else (hasPathDFS t.adjacencyList (dfsFuel t) start start []).2.length =
      t.nodeRegistry.length

/-- Model of `TopologyManager::repairTopology`: validate, then — if the graph
reports disconnected and more than one node is registered — connect all
registered nodes in a ring via `addEdge`. -/
def repairTopology (t : Topo) : Topo :=
  let t1 := validateTopology t
  if isTopologyConnected t1 then t1
  else
    let ids := getAllNodeIDs t1
    if 1 < ids.length then
      (List.range ids.length).foldl
        (fun acc i => addEdge acc (ids.getD i 0) (ids.getD ((i + 1) % ids.length) 0)) t1
    else t1

/-- Adjacency symmetry (spec P1), membership formulation. -/
def SymAdj (t : Topo) : Prop :=
  ∀ a b, b ∈ adjSet t a → a ∈ adjSet t b

/-- Executable symmetry check over the stored entries. -/
def symB (t : Topo) : Bool :=
  t.adjacencyList.all fun p => (adjSet t p.1).all fun b => decide (p.1 ∈ adjSet t b)

/-- Registry closure of the adjacency keys (spec I1). -/
def AdjClosed (t : Topo) : Prop :=
  ∀ p ∈ t.adjacencyList, mapMem t.nodeRegistry p.1 = true

instance (t : Topo) : Decidable (AdjClosed t) := by
  unfold AdjClosed
  infer_instance

/-! ### BFS path finding (`TopologyManager::findPath`, claim C3) -/

/-- Every node id occurring in some neighbour set. -/
def universeOf (adj : List (Nat × List Nat)) : List Nat :=
  ((adj.map Prod.snd).flatten).dedup

/-- The path-reconstruction loop of `findPath`: walk the parent map from `to`
back to `from`, accumulating in reverse (the C++ builds the list forward and
reverses). -/
def reconstructPath (parent : List (Nat × Nat)) (frm : Nat) :
    Nat → Nat → List Nat → List Nat
  | 0, _, acc => acc
  | fuel + 1, node, acc =>
    if node = frm then frm :: acc
    else reconstructPath parent frm fuel ((List.lookup node parent).getD 0) (node :: acc)

/-- The neighbour scan of one BFS iteration: unvisited neighbours are marked
visited, get their parent set to `cur`, and are pushed on the queue. -/
def enqueueNbrs (cur : Nat) :
    List Nat → List Nat → List (Nat × Nat) → List Nat →
    List Nat × List (Nat × Nat) × List Nat
  | [], queue, parent, visited => (queue, parent, visited)
  | n :: ns, queue, parent, visited =>
    if n ∈ visited then enqueueNbrs cur ns queue parent visited
    else enqueueNbrs cur ns (queue ++ [n]) ((n, cur) :: parent) (n :: visited)

/-- The BFS loop of `findPath` (fuel-bounded; the fuel is proved sufficient). -/
def bfsLoop (adj : List (Nat × List Nat)) (frm tgt : Nat) (rfuel : Nat) :
    Nat → List Nat → List (Nat × Nat) → List Nat → List Nat
  | 0, _, _, _ => []
  | fuel + 1, queue, parent, visited =>
    match queue with
    | [] => []
    | current :: rest =>
      if current = tgt then reconstructPath parent frm rfuel tgt []
      else
        let s := enqueueNbrs current (neighborsOf adj current) rest parent visited
        bfsLoop adj frm tgt rfuel fuel s.1 s.2.1 s.2.2

/-- Model of `TopologyManager::findPath`: `[from]` when `from == to`,
otherwise BFS from `from` with `parent[from] = from` and `from` visited. -/
def findPath (adj : List (Nat × List Nat)) (frm tgt : Nat) : List Nat :=
  if frm = tgt then [frm]
  else
    bfsLoop adj frm tgt ((universeOf adj).length + 2)
      (2 * (universeOf adj).length + 1) [frm] [(frm, frm)] [frm]

/-- Directed adjacency as stored: `b` is in `a`'s neighbour set. -/
def adjacent (adj : List (Nat × List Nat)) (a b : Nat) : Prop :=
  b ∈ neighborsOf adj a

instance (adj : List (Nat × List Nat)) (a b : Nat) : Decidable (adjacent adj a b) :=
  decidable_of_iff (List.elem b (neighborsOf adj a) = true) (by simp [adjacent, List.elem_iff])

/-- Executable chain check used only to decide `List.Chain' (adjacent adj)` on
concrete inputs. -/
def chainB (adj : List (Nat × List Nat)) : List Nat → Bool
  | [] => true
  | [_] => true
  | a :: b :: rest => List.elem b (neighborsOf adj a) && chainB adj (b :: rest)

theorem chainB_iff (adj : List (Nat × List Nat)) :
    ∀ p, chainB adj p = true ↔ List.Chain' (adjacent adj) p
  | [] => by simp [chainB]
  | [a] => by simp [chainB]
  | a :: b :: rest => by
    rw [chainB, List.chain'_cons, Bool.and_eq_true, chainB_iff adj (b :: rest)]
    simp [adjacent, List.elem_iff]

instance (adj : List (Nat × List Nat)) (p : List Nat) :
    Decidable (List.Chain' (adjacent adj) p) :=
  decidable_of_iff (chainB adj p = true) (chainB_iff adj p)

/-- A walk from `frm` to `to` over the adjacency structure, both endpoints
included. -/
def IsWalk (adj : List (Nat × List Nat)) (frm tgt : Nat) (p : List Nat) : Prop :=
  p.head? = some frm ∧ p.getLast? = some tgt ∧ List.Chain' (adjacent adj) p

instance (adj : List (Nat × List Nat)) (frm tgt : Nat) (p : List Nat) :
    Decidable (IsWalk adj frm tgt p) :=
  inferInstanceAs (Decidable
    (p.head? = some frm ∧ p.getLast? = some tgt ∧ List.Chain' (adjacent adj) p))

def ReachableAdj (adj : List (Nat × List Nat)) (frm tgt : Nat) : Prop :=
  ∃ p, IsWalk adj frm tgt p

/-! ### MessageRouter (claims C4 and C5)

`MessageRouter::findRoute`, `routeMessageMultiHop`, `getHopCount`,
`isReachable`.  The transport (`NetworkManager::sendMessageToPeer`) succeeds
exactly when the target id has an entry in `activeConnections_`, modelled as
the `conns` list. -/

structure RouterCtx where
  selfID : Nat
  /-- `Node::peerIDs_`, the local roster. -/
  peers : List Nat
  /-- keys of `NetworkManager::activeConnections_`. -/
  conns : List Nat
  /-- `TopologyManager::adjacencyList_`. -/
  adj : List (Nat × List Nat)
deriving Repr, DecidableEq

def hasPeer (ctx : RouterCtx) (id : Nat) : Bool := ctx.peers.contains id

/-- Model of `NetworkManager::sendMessageToPeer`: false without an active
connection entry, true on a successful socket write. -/
def sendMessageToPeer (ctx : RouterCtx) (peerID : Nat) : Bool := ctx.conns.contains peerID

/-- Model of `MessageRouter::findRoute`: a directly-rostered peer
short-circuits to `[self, target]`; otherwise BFS over the topology. -/
def findRoute (ctx : RouterCtx) (targetID : Nat) : List Nat :=
  if hasPeer ctx targetID then [ctx.selfID, targetID]
  else findPath ctx.adj ctx.selfID targetID

/-- Observable outcome of one routing call: returned flag, the hop-count
statistic, and the transport targets attempted. -/
structure RouteOutcome where
  ok : Bool
  totalHopCount : Nat
  sends : List Nat
deriving Repr, DecidableEq

/-- Model of `MessageRouter::routeMessageMultiHop`. -/
def routeMessageMultiHop (ctx : RouterCtx) (targetID : Nat) (hop : Nat) : RouteOutcome :=
  let route := findRoute ctx targetID
  if route.isEmpty then { ok := false, totalHopCount := hop, sends := [] }
  else if route.length = 1 then
    { ok := sendMessageToPeer ctx targetID, totalHopCount := hop, sends := [targetID] }
  else
    { ok := sendMessageToPeer ctx (route.getD 1 0)
      totalHopCount := hop + (route.length - 1)
      sends := [route.getD 1 0] }

/-- Model of `MessageRouter::getHopCount`. -/
def getHopCount (ctx : RouterCtx) (targetID : Nat) : Int :=
  let route := findRoute ctx targetID
  if route.isEmpty then -1 else (route.length : Int) - 1

/-- Model of `MessageRouter::isReachable`. -/
def isReachable (ctx : RouterCtx) (targetID : Nat) : Bool :=
  !(findRoute ctx targetID).isEmpty

/-! ### Generic list helper lemmas -/

theorem lookup_append_left {α : Type} {l1 l2 : List (Nat × α)} {k : Nat} {v : α}
    (h : List.lookup k l1 = some v) : List.lookup k (l1 ++ l2) = some v := by
  induction l1 with
  | nil => simp [List.lookup] at h
  | cons p rest ih =>
    obtain ⟨k2, v2⟩ := p
    by_cases hk : k = k2
    · subst hk
      simp [List.lookup] at h ⊢
      exact h
    · have hne : (k == k2) = false := by simp [hk]
      simp [List.lookup, hne] at h ⊢
      exact ih h

theorem lookup_none_of_keys_ne {α : Type} {l : List (Nat × α)} {k : Nat}
    (h : ∀ p ∈ l, p.1 ≠ k) : List.lookup k l = none := by
  induction l with
  | nil => simp [List.lookup]
  | cons p rest ih =>
    obtain ⟨k2, v2⟩ := p
    have hne : (k == k2) = false := by
      rw [beq_eq_false_iff_ne]
      exact fun hh => (h (k2, v2) (by simp)) hh.symm
    simp only [List.lookup, hne]
    exact ih fun q hq => h q (List.mem_cons_of_mem _ hq)

theorem lookup_append_right {α : Type} {l1 l2 : List (Nat × α)} {k : Nat}
    (h : List.lookup k l1 = none) :
    List.lookup k (l1 ++ l2) = List.lookup k l2 := by
  induction l1 with
  | nil => simp
  | cons p rest ih =>
    obtain ⟨k2, v2⟩ := p
    by_cases hk : k = k2
    · subst hk
      simp [List.lookup] at h
    · have hne : (k == k2) = false := by simp [hk]
      simp only [List.lookup, hne] at h
      simp only [List.cons_append, List.lookup, hne]
      exact ih h

theorem lookup_range_map {α : Type} (g : Nat → α) :
    ∀ cc i : Nat, i < cc →
      List.lookup i ((List.range cc).map fun j => (j, g j)) = some (g i) := by
  intro cc
  induction cc with
  | zero => intro i h; omega
  | succ n ih =>
    intro i h
    rw [List.range_succ, List.map_append]
    by_cases hi : i < n
    · exact lookup_append_left (ih i hi)
    · have hin : i = n := by omega
      have hnone : List.lookup i ((List.range n).map fun j => (j, g j)) = none := by
        apply lookup_none_of_keys_ne
        intro p hp
        simp only [List.mem_map, List.mem_range] at hp
        obtain ⟨j, hj, rfl⟩ := hp
        simp only [hin]
        exact Nat.ne_of_lt hj
      rw [lookup_append_right hnone, hin]
      simp [List.lookup]

theorem take_min_length {α : Type} (l : List α) (n : Nat) :
    l.take (min n l.length) = l.take n := by
  rcases Nat.le_total n l.length with h | h
  · rw [Nat.min_eq_left h]
  · rw [Nat.min_eq_right h, List.take_of_length_le h, List.take_of_length_le]
    simp

/-- `mapInsert` appends when the new key is larger than every present key. -/
theorem mapInsert_append {α : Type} (m : List (Nat × α)) (k : Nat) (v : α)
    (h : ∀ p ∈ m, p.1 < k) : mapInsert m k v = m ++ [(k, v)] := by
  induction m with
  | nil => simp [mapInsert]
  | cons p rest ih =>
    obtain ⟨k2, v2⟩ := p
    have hk2 : k2 < k := h (k2, v2) (by simp)
    have h1 : ¬ k < k2 := by omega
    have h2 : k ≠ k2 := by omega
    simp [mapInsert, h1, h2]
    exact ih fun q hq => h q (by simp [hq])

/-- Folding `mapInsert` over strictly-ascending keys just appends the pairs. -/
theorem foldl_mapInsert_ascending {α : Type} :
    ∀ (l : List (Nat × α)) (m : List (Nat × α)),
      List.Pairwise (fun p q => p.1 < q.1) l →
      (∀ p ∈ m, ∀ q ∈ l, p.1 < q.1) →
      l.foldl (fun mm p => mapInsert mm p.1 p.2) m = m ++ l := by
  intro l
  induction l with
  | nil => intro m _ _; simp
  | cons p rest ih =>
    intro m hpair hlt
    obtain ⟨k, v⟩ := p
    have hstep : mapInsert m k v = m ++ [(k, v)] :=
      mapInsert_append m k v fun q hq => hlt q hq (k, v) (by simp)
    simp only [List.foldl_cons, hstep]
    rw [ih (m ++ [(k, v)]) (List.Pairwise.of_cons hpair) ?_]
    · simp
    · intro q hq r hr
      rcases List.mem_append.mp hq with hq1 | hq1
      · exact hlt q hq1 r (by simp [hr])
      · simp only [List.mem_singleton] at hq1
        subst hq1
        exact (List.pairwise_cons.mp hpair).1 r hr

/-! ### Claim C7: topology operations and adjacency symmetry -/

theorem mem_setInsert {c x : Nat} {s : List Nat} :
    c ∈ setInsert x s ↔ c = x ∨ c ∈ s := by
  induction s with
  | nil => simp [setInsert]
  | cons y ys ih =>
    by_cases h1 : x < y
    · simp only [setInsert, if_pos h1]
      simp [List.mem_cons]
    · by_cases h2 : x = y
      · subst h2
        simp only [setInsert, if_neg h1, if_pos rfl]
        simp [List.mem_cons]
      · simp only [setInsert, if_neg h1, if_neg h2]
        simp only [List.mem_cons, ih]
        tauto

theorem mem_setErase {c x : Nat} {s : List Nat} :
    c ∈ setErase x s ↔ c ∈ s ∧ c ≠ x := by
  simp [setErase, List.mem_filter]

theorem mem_adjInsert {adj : List (Nat × List Nat)} {a b v c : Nat} :
    c ∈ neighborsOf (adjInsert adj a b) v ↔ (v = a ∧ c = b) ∨ c ∈ neighborsOf adj v := by
  unfold adjInsert neighborsOf
  by_cases hv : v = a
  · subst hv
    rw [lookup_mapInsert_self]
    simp [mem_setInsert]
  · rw [lookup_mapInsert_ne _ _ _ _ hv]
    simp [hv]

theorem mem_adjEraseNbr {adj : List (Nat × List Nat)} {a b v c : Nat} :
    c ∈ neighborsOf (adjEraseNbr adj a b) v ↔
      c ∈ neighborsOf adj v ∧ ¬ (v = a ∧ c = b) := by
  unfold adjEraseNbr
  cases hb : List.lookup a adj with
  | none =>
    by_cases hv : v = a
    · subst hv
      unfold neighborsOf
      rw [hb]
      simp
    · simp [hv]
  | some s =>
    by_cases hv : v = a
    · subst hv
      unfold neighborsOf
      rw [lookup_mapInsert_self, hb]
      simp [mem_setErase]
    · unfold neighborsOf
      rw [lookup_mapInsert_ne _ _ _ _ hv]
      simp [hv]

theorem mem_adjSet_removeNodeFromGraph {t : Topo} {id v c : Nat} :
    c ∈ adjSet (removeNodeFromGraph t id) v ↔
      v ≠ id ∧ c ≠ id ∧ c ∈ adjSet t v := by
  unfold removeNodeFromGraph adjSet neighborsOf
  show c ∈ (List.lookup v ((mapErase t.adjacencyList id).map fun p =>
    (p.1, setErase id p.2))).getD [] ↔ _
  rw [lookup_map_value]
  by_cases hv : v = id
  · subst hv
    rw [lookup_mapErase_self]
    simp
  · rw [lookup_mapErase_ne _ _ _ hv]
    cases hl : List.lookup v t.adjacencyList with
    | none => simp [hv]
    | some s =>
      simp only [hv, Option.map_some', Option.getD_some, mem_setErase, ne_eq,
        not_false_eq_true, true_and]
      tauto

theorem symB_iff (t : Topo) : symB t = true ↔ SymAdj t := by
  constructor
  · intro hb a b hab
    unfold symB at hb
    have hkey : List.lookup a t.adjacencyList ≠ none := by
      intro hnone
      unfold adjSet neighborsOf at hab
      rw [hnone] at hab
      simp at hab
    obtain ⟨s, hs⟩ := Option.ne_none_iff_exists'.mp hkey
    have hmem : (a, s) ∈ t.adjacencyList := lookup_some_mem hs
    have h1 := (List.all_eq_true.mp hb) (a, s) hmem
    have h2 := List.all_eq_true.mp h1 b
    have hb2 : b ∈ adjSet t a := hab
    exact of_decide_eq_true (h2 hb2)
  · intro hsym
    unfold symB
    rw [List.all_eq_true]
    intro p hp
    rw [List.all_eq_true]
    intro b hb
    exact decide_eq_true (hsym p.1 b hb)

theorem sym_addEdge {t : Topo} (hsym : SymAdj t) (a b : Nat) :
    SymAdj (addEdge t a b) := by
  by_cases hab : a = b
  · unfold addEdge
    rw [if_pos hab]
    exact hsym
  · have hadj : (addEdge t a b).adjacencyList =
        adjInsert (adjInsert t.adjacencyList a b) b a := by
      unfold addEdge
      rw [if_neg hab]
    have hchar : ∀ v x, x ∈ adjSet (addEdge t a b) v ↔
        (v = b ∧ x = a) ∨ (v = a ∧ x = b) ∨ x ∈ adjSet t v := by
      intro v x
      unfold adjSet
      rw [hadj, mem_adjInsert, mem_adjInsert]
    intro p q hpq
    rw [hchar] at hpq
    rw [hchar]
    rcases hpq with ⟨h1, h2⟩ | ⟨h1, h2⟩ | h
    · exact Or.inr (Or.inl ⟨h2, h1⟩)
    · exact Or.inl ⟨h2, h1⟩
    · exact Or.inr (Or.inr (hsym p q h))

theorem sym_removeEdge {t : Topo} (hsym : SymAdj t) (a b : Nat) :
    SymAdj (removeEdge t a b) := by
  have hchar : ∀ v x, x ∈ adjSet (removeEdge t a b) v ↔
      (x ∈ adjSet t v ∧ ¬ (v = a ∧ x = b)) ∧ ¬ (v = b ∧ x = a) := by
    intro v x
    unfold adjSet removeEdge
    show x ∈ neighborsOf (adjEraseNbr (adjEraseNbr t.adjacencyList a b) b a) v ↔ _
    rw [mem_adjEraseNbr, mem_adjEraseNbr]
  intro p q hpq
  rw [hchar] at hpq
  rw [hchar]
  obtain ⟨⟨hmem, hna⟩, hnb⟩ := hpq
  refine ⟨⟨hsym p q hmem, ?_⟩, ?_⟩
  · rintro ⟨h1, h2⟩
    exact hnb ⟨h2, h1⟩
  · rintro ⟨h1, h2⟩
    exact hna ⟨h2, h1⟩

theorem sym_removeNodeFromGraph {t : Topo} (hsym : SymAdj t) (id : Nat) :
    SymAdj (removeNodeFromGraph t id) := by
  intro p q hpq
  rw [mem_adjSet_removeNodeFromGraph] at hpq ⊢
  exact ⟨hpq.2.1, hpq.1, hsym p q hpq.2.2⟩

theorem sym_removeNode {t : Topo} (hsym : SymAdj t) (id : Nat) :
    SymAdj (removeNode t id).2 := by
  unfold removeNode
  by_cases h : mapMem t.nodeRegistry id
  · rw [if_pos h]
    exact sym_removeNodeFromGraph hsym id
  · rw [if_neg h]
    exact hsym

/-- Under registry closure, an unregistered id has no adjacency entry and
appears in no neighbour set of a symmetric state. -/
theorem unregistered_isolated {t : Topo} (hsym : SymAdj t) (hclosed : AdjClosed t)
    {id : Nat} (hid : mapMem t.nodeRegistry id = false) :
    List.lookup id t.adjacencyList = none ∧ ∀ v, id ∉ adjSet t v := by
  have hnone : List.lookup id t.adjacencyList = none := by
    apply lookup_none_of_keys_ne
    intro p hp hpe
    have := hclosed p hp
    rw [hpe, hid] at this
    simp at this
  refine ⟨hnone, ?_⟩
  intro v hv
  have := hsym v id hv
  unfold adjSet neighborsOf at this
  rw [hnone] at this
  simp at this

theorem sym_addNode {t : Topo} (hsym : SymAdj t) (hclosed : AdjClosed t)
    (id : Nat) (addr : NetworkAddress) : SymAdj (addNode t id addr).2 := by
  unfold addNode
  by_cases h : mapMem t.nodeRegistry id
  · rw [if_pos h]
    exact hsym
  · rw [if_neg h]
    obtain ⟨hnone, hiso⟩ := unregistered_isolated hsym hclosed (by simpa using h)
    have hchar : ∀ v x, x ∈ adjSet
        ({ nodeRegistry := mapInsert t.nodeRegistry id addr
           adjacencyList := mapInsert t.adjacencyList id [] } : Topo) v ↔
        v ≠ id ∧ x ∈ adjSet t v := by
      intro v x
      unfold adjSet neighborsOf
      by_cases hv : v = id
      · subst hv
        show x ∈ (List.lookup v (mapInsert t.adjacencyList v [])).getD [] ↔ _
        rw [lookup_mapInsert_self]
        simp
      · show x ∈ (List.lookup v (mapInsert t.adjacencyList id [])).getD [] ↔ _
        rw [lookup_mapInsert_ne _ _ _ _ hv]
        simp [hv]
    intro p q hpq
    rw [hchar] at hpq
    rw [hchar]
    have hq : q ≠ id := by
      intro hqe
      exact hiso p (hqe ▸ hpq.2)
    exact ⟨hq, hsym p q hpq.2⟩

theorem validate_eq_of_closed {t : Topo} (hclosed : AdjClosed t) :
    validateTopology t = t := by
  unfold validateTopology
  cases t with
  | mk reg adj =>
    simp only [Topo.mk.injEq, true_and]
    exact List.filter_eq_self.mpr fun p hp => hclosed p hp

theorem sym_addEdge_fold {l : List Nat} (f g : Nat → Nat) :
    ∀ t : Topo, SymAdj t →
      SymAdj (l.foldl (fun acc i => addEdge acc (f i) (g i)) t) := by
  induction l with
  | nil => intro t h; exact h
  | cons i rest ih =>
    intro t h
    rw [List.foldl_cons]
    exact ih _ (sym_addEdge h (f i) (g i))

theorem sym_repairTopology {t : Topo} (hsym : SymAdj t) (hclosed : AdjClosed t) :
    SymAdj (repairTopology t) := by
  unfold repairTopology
  rw [validate_eq_of_closed hclosed]
  by_cases hconn : isTopologyConnected t
  · rw [if_pos hconn]
    exact hsym
  · rw [if_neg hconn]
    by_cases hlen : 1 < (getAllNodeIDs t).length
    · rw [if_pos hlen]
      exact sym_addEdge_fold _ _ t hsym
    · rw [if_neg hlen]
      exact hsym

/-! ### BFS correctness (claim C3) -/

theorem walk_length_pos {adj : List (Nat × List Nat)} {a b : Nat} {p : List Nat}
    (hw : IsWalk adj a b p) : 1 ≤ p.length := by
  cases p with
  | nil => simp [IsWalk] at hw
  | cons x rest => simp

theorem walk_singleton {adj : List (Nat × List Nat)} {a b x : Nat}
    (hw : IsWalk adj a b [x]) : x = a ∧ x = b := by
  obtain ⟨hh, hl, _⟩ := hw
  simp at hh hl
  omega

theorem walk_nil_walk (adj : List (Nat × List Nat)) (a : Nat) :
    IsWalk adj a a [a] := by
  refine ⟨rfl, rfl, ?_⟩
  simp

theorem walk_all_visited {adj : List (Nat × List Nat)} {visited : List Nat}
    (hclosed : ∀ u ∈ visited, ∀ n, adjacent adj u n → n ∈ visited) :
    ∀ (p : List Nat) (a b : Nat), a ∈ visited → IsWalk adj a b p → b ∈ visited := by
  intro p
  induction p with
  | nil =>
    intro a b _ hw
    simp [IsWalk] at hw
  | cons x rest ih =>
    intro a b ha hw
    obtain ⟨hh, hl, hc⟩ := hw
    have hxa : x = a := by simpa using hh
    subst hxa
    cases rest with
    | nil =>
      have hb : x = b := by simpa using hl
      subst hb
      exact ha
    | cons y rest2 =>
      rw [List.chain'_cons] at hc
      have hy : y ∈ visited := hclosed x ha y hc.1
      rw [List.getLast?_cons_cons] at hl
      exact ih y b hy ⟨rfl, hl, hc.2⟩

theorem walk_split_last {adj : List (Nat × List Nat)} {frm v : Nat} {p : List Nat}
    (hw : IsWalk adj frm v p) (h2 : 2 ≤ p.length) :
    ∃ (p' : List Nat) (w : Nat), p = p' ++ [v] ∧ IsWalk adj frm w p' ∧
      adjacent adj w v ∧ p.length = p'.length + 1 := by
  obtain ⟨hh, hl, hc⟩ := hw
  have hne : p ≠ [] := by
    intro h
    subst h
    simp at hh
  have hsplit : p.dropLast ++ [p.getLast hne] = p := List.dropLast_append_getLast hne
  have hvl : p.getLast hne = v := by
    have := List.getLast?_eq_getLast p hne
    rw [this] at hl
    exact Option.some.injEq _ _ ▸ hl
  have hp'len : p.dropLast.length = p.length - 1 := List.length_dropLast p
  have hp'ne : p.dropLast ≠ [] := by
    intro h
    rw [h] at hp'len
    simp at hp'len
    omega
  have hcsplit := List.chain'_append.mp (by rw [hvl] at hsplit; rw [hsplit]; exact hc :
    List.Chain' (adjacent adj) (p.dropLast ++ [v]))
  refine ⟨p.dropLast, p.dropLast.getLast hp'ne, by rw [hvl] at hsplit; exact hsplit.symm,
    ⟨?_, List.getLast?_eq_getLast _ hp'ne, hcsplit.1⟩, ?_, by omega⟩
  · rw [← hh]
    conv_rhs => rw [← hsplit]
    cases hdl : p.dropLast with
    | nil => exact absurd hdl hp'ne
    | cons z zs => simp [hdl]
  · have h3 := hcsplit.2.2
    refine h3 _ ?_ v rfl
    exact List.getLast?_eq_getLast _ hp'ne

theorem lookup_const_map {c : Nat} : ∀ (l : List Nat) (v : Nat), v ∈ l →
    List.lookup v (l.map fun n => (n, c)) = some c := by
  intro l
  induction l with
  | nil => intro v hv; simp at hv
  | cons n ns ih =>
    intro v hv
    by_cases hvn : v = n
    · subst hvn
      simp [List.lookup]
    · have hne : (v == n) = false := by simp [hvn]
      simp only [List.map_cons, List.lookup, hne]
      exact ih v (by rcases List.mem_cons.mp hv with h | h; exact absurd h hvn; exact h)

theorem neighbors_sub_univ {adj : List (Nat × List Nat)} {u n : Nat}
    (h : adjacent adj u n) : n ∈ (adj.map Prod.snd).flatten := by
  unfold adjacent neighborsOf at h
  cases hl : List.lookup u adj with
  | none =>
    rw [hl] at h
    simp at h
  | some s =>
    rw [hl] at h
    simp only [Option.getD_some] at h
    refine List.mem_flatten.mpr ⟨s, ?_, h⟩
    exact List.mem_map.mpr ⟨(u, s), lookup_some_mem hl, rfl⟩

/-- The neighbour scan appends exactly the unvisited neighbours, records their
parent, and marks them visited. -/
theorem enqueueNbrs_spec (cur : Nat) :
    ∀ (ns queue : List Nat) (parent : List (Nat × Nat)) (visited : List Nat),
      ∃ added : List Nat,
        enqueueNbrs cur ns queue parent visited =
          (queue ++ added, (added.reverse.map fun n => (n, cur)) ++ parent,
            added.reverse ++ visited) ∧
        added.Nodup ∧
        (∀ n ∈ added, n ∈ ns ∧ n ∉ visited) ∧
        (∀ n ∈ ns, n ∈ added ∨ n ∈ visited) := by
  intro ns
  induction ns with
  | nil =>
    intro queue parent visited
    exact ⟨[], by simp [enqueueNbrs], by simp, by simp, by simp⟩
  | cons n ns' ih =>
    intro queue parent visited
    by_cases hn : n ∈ visited
    · obtain ⟨added, heq, hnd, hsub, hcov⟩ := ih queue parent visited
      refine ⟨added, ?_, hnd, ?_, ?_⟩
      · rw [enqueueNbrs, if_pos hn]
        exact heq
      · intro m hm
        exact ⟨List.mem_cons_of_mem _ (hsub m hm).1, (hsub m hm).2⟩
      · intro m hm
        rcases List.mem_cons.mp hm with h | h
        · subst h
          exact Or.inr hn
        · exact hcov m h
    · obtain ⟨added, heq, hnd, hsub, hcov⟩ := ih (queue ++ [n]) ((n, cur) :: parent)
        (n :: visited)
      have hna : n ∉ added := by
        intro hmem
        have := (hsub n hmem).2
        simp at this
      refine ⟨n :: added, ?_, ?_, ?_, ?_⟩
      · have hstep : enqueueNbrs cur (n :: ns') queue parent visited =
            enqueueNbrs cur ns' (queue ++ [n]) ((n, cur) :: parent) (n :: visited) := by
          simp only [enqueueNbrs, if_neg hn]
        rw [hstep, heq]
        simp [List.reverse_cons, List.append_assoc]
      · exact List.nodup_cons.mpr ⟨hna, hnd⟩
      · intro m hm
        rcases List.mem_cons.mp hm with h | h
        · subst h
          exact ⟨List.mem_cons_self _ _, hn⟩
        · have := hsub m h
          refine ⟨List.mem_cons_of_mem _ this.1, ?_⟩
          intro hmv
          exact this.2 (List.mem_cons_of_mem _ hmv)
      · intro m hm
        rcases List.mem_cons.mp hm with h | h
        · subst h
          exact Or.inl (List.mem_cons_self _ _)
        · rcases hcov m h with h2 | h2
          · exact Or.inl (List.mem_cons_of_mem _ h2)
          · rcases List.mem_cons.mp h2 with h3 | h3
            · subst h3
              exact Or.inl (List.mem_cons_self _ _)
            · exact Or.inr h3

def unvisCount (adj : List (Nat × List Nat)) (visited : List Nat) : Nat :=
  ((universeOf adj).filter fun x => decide (x ∉ visited)).length

def bfsMeasure (adj : List (Nat × List Nat)) (visited queue : List Nat) : Nat :=
  2 * unvisCount adj visited + queue.length

theorem filter_notin_cons_length {vis : List Nat} {x : Nat} :
    ∀ {U : List Nat}, U.Nodup → x ∈ U → x ∉ vis →
    (U.filter fun y => decide (y ∉ x :: vis)).length + 1 =
      (U.filter fun y => decide (y ∉ vis)).length := by
  intro U
  induction U with
  | nil =>
    intro _ hx _
    simp at hx
  | cons u U' ih =>
    intro hnd hx hnv
    rw [List.nodup_cons] at hnd
    by_cases hux : u = x
    · subst hux
      have h1 : (decide (u ∉ u :: vis)) = false := by simp
      have h2 : (decide (u ∉ vis)) = true := by simpa using hnv
      rw [List.filter_cons, List.filter_cons, h1, h2]
      simp only [List.length_cons]
      have hflt : U'.filter (fun y => decide (y ∉ u :: vis)) =
          U'.filter (fun y => decide (y ∉ vis)) := by
        apply List.filter_congr
        intro y hy
        have hyx : y ≠ u := fun hh => hnd.1 (hh ▸ hy)
        simp [List.mem_cons, hyx]
      rw [hflt]
      simp
    · have hx' : x ∈ U' := by
        rcases List.mem_cons.mp hx with h | h
        · exact absurd h.symm hux
        · exact h
      have heq : (u ∉ x :: vis) ↔ (u ∉ vis) := by
        simp [List.mem_cons, hux]
      have h1 : decide (u ∉ x :: vis) = decide (u ∉ vis) := decide_eq_decide.mpr heq
      rw [List.filter_cons, List.filter_cons, h1]
      by_cases hu : u ∉ vis
      · have hc : decide (u ∉ vis) = true := by simpa using hu
        simp only [if_pos hc, List.length_cons]
        have := ih hnd.2 hx' hnv
        omega
      · have hc : ¬ (decide (u ∉ vis) = true) := by simpa using hu
        simp only [if_neg hc]
        exact ih hnd.2 hx' hnv

theorem unvisCount_extend (adj : List (Nat × List Nat)) :
    ∀ (added visited : List Nat), added.Nodup →
      (∀ n ∈ added, n ∈ (adj.map Prod.snd).flatten ∧ n ∉ visited) →
      unvisCount adj (added.reverse ++ visited) + added.length = unvisCount adj visited := by
  intro added
  induction added with
  | nil =>
    intro visited _ _
    simp
  | cons a as ih =>
    intro visited hnd hmem
    rw [List.nodup_cons] at hnd
    have hstep : unvisCount adj (a :: visited) + 1 = unvisCount adj visited := by
      unfold unvisCount
      exact filter_notin_cons_length (List.nodup_dedup _)
        (List.mem_dedup.mpr (hmem a (List.mem_cons_self _ _)).1)
        (hmem a (List.mem_cons_self _ _)).2
    have hrw : (a :: as).reverse ++ visited = as.reverse ++ (a :: visited) := by
      simp
    rw [hrw]
    have hih := ih (a :: visited) hnd.2 ?_
    · simp only [List.length_cons]
      omega
    · intro n hn
      refine ⟨(hmem n (List.mem_cons_of_mem _ hn)).1, ?_⟩
      intro hmem2
      rcases List.mem_cons.mp hmem2 with h | h
      · exact hnd.1 (h ▸ hn)
      · exact (hmem n (List.mem_cons_of_mem _ hn)).2 h

theorem unvisCount_le (adj : List (Nat × List Nat)) (visited : List Nat) :
    unvisCount adj visited ≤ (universeOf adj).length :=
  List.length_filter_le _ _

/-- The loop invariant of the BFS in `TopologyManager::findPath`.  `lvl` is a
ghost distance label, `d` the level of the front of the queue. -/
structure BfsInv (adj : List (Nat × List Nat)) (frm tgt : Nat)
    (queue : List Nat) (parent : List (Nat × Nat)) (visited : List Nat)
    (lvl : Nat → Nat) (d : Nat) : Prop where
  frm_vis : frm ∈ visited
  lvl_frm : lvl frm = 0
  chain : ∀ v ∈ visited, v ≠ frm →
    ∃ u, List.lookup v parent = some u ∧ u ∈ visited ∧ adjacent adj u v ∧ lvl v = lvl u + 1
  queue_sub : ∀ v ∈ queue, v ∈ visited
  split : ∃ q1 q2, queue = q1 ++ q2 ∧ (∀ v ∈ q1, lvl v = d) ∧ (∀ v ∈ q2, lvl v = d + 1)
  closed : ∀ u ∈ visited, u ∉ queue → ∀ n, adjacent adj u n → n ∈ visited
  lvl_min : ∀ v ∈ visited, ∀ p, IsWalk adj frm v p → lvl v + 1 ≤ p.length
  saturated : ∀ v, (∃ p, IsWalk adj frm v p ∧ p.length ≤ d + 1) → v ∈ visited
  vis_nodup : visited.Nodup
  vis_bound : ∀ v ∈ visited, lvl v + 1 ≤ visited.length
  vis_sub : ∀ v ∈ visited, v = frm ∨ v ∈ (adj.map Prod.snd).flatten
  tgt_queue : tgt ∉ visited ∨ tgt ∈ queue
  queue_nodup : queue.Nodup

/-- Walking the parent pointers from a visited vertex yields a walk from the
start vertex whose length is one more than the vertex's ghost level. -/
theorem reconstruct_spec (adj : List (Nat × List Nat)) (frm : Nat)
    (parent : List (Nat × Nat)) (visited : List Nat) (lvl : Nat → Nat)
    (hfrm0 : lvl frm = 0)
    (hchain : ∀ v ∈ visited, v ≠ frm →
      ∃ u, List.lookup v parent = some u ∧ u ∈ visited ∧ adjacent adj u v ∧
        lvl v = lvl u + 1) :
    ∀ (k v : Nat) (acc : List Nat) (rfuel : Nat), lvl v = k → v ∈ visited →
      lvl v + 1 ≤ rfuel →
      ∃ w : List Nat, reconstructPath parent frm rfuel v acc = w ++ acc ∧
        w.head? = some frm ∧ w.getLast? = some v ∧ List.Chain' (adjacent adj) w ∧
        w.length = lvl v + 1 := by
  intro k
  induction k using Nat.strong_induction_on with
  | _ k ih =>
    intro v acc rfuel hk hv hfuel
    cases rfuel with
    | zero => omega
    | succ r =>
      by_cases hvf : v = frm
      · subst hvf
        refine ⟨[v], ?_, rfl, rfl, List.chain'_singleton _, ?_⟩
        · simp only [reconstructPath, if_pos rfl]
          rfl
        · simp [hfrm0]
      · obtain ⟨u, hup, huv, hadj, hlv⟩ := hchain v hv hvf
        have hred : reconstructPath parent frm (r + 1) v acc =
            reconstructPath parent frm r u (v :: acc) := by
          simp only [reconstructPath, if_neg hvf, hup, Option.getD_some]
        obtain ⟨w', hw', hh, hl, hc, hlen⟩ :=
          ih (lvl u) (by omega) u (v :: acc) r rfl huv (by omega)
        refine ⟨w' ++ [v], ?_, ?_, List.getLast?_concat _, ?_, ?_⟩
        · rw [hred, hw', List.append_assoc, List.singleton_append]
        · cases w' with
          | nil => simp at hh
          | cons z zs =>
            simp only [List.cons_append, List.head?_cons] at hh ⊢
            exact hh
        · refine List.chain'_append.mpr ⟨hc, List.chain'_singleton _, ?_⟩
          intro x hx y hy
          rw [hl] at hx
          simp at hx hy
          subst hx
          subst hy
          exact hadj
        · simp only [List.length_append, List.length_cons, List.length_nil, hlen]
          omega

def bfsLvlUpd (lvl : Nat → Nat) (added : List Nat) (c : Nat) : Nat → Nat :=
  fun v => if v ∈ added then lvl c + 1 else lvl v

/-- Processing the head of the queue preserves the BFS invariant and strictly
decreases the termination measure. -/
theorem bfs_step {adj : List (Nat × List Nat)} {frm tgt current : Nat}
    {rest : List Nat} {parent : List (Nat × Nat)} {visited : List Nat}
    {lvl : Nat → Nat} {d : Nat} {added : List Nat}
    (inv : BfsInv adj frm tgt (current :: rest) parent visited lvl d)
    (hct : current ≠ tgt)
    (hand : added.Nodup)
    (hasb : ∀ n ∈ added, n ∈ neighborsOf adj current ∧ n ∉ visited)
    (hcover : ∀ n ∈ neighborsOf adj current, n ∈ added ∨ n ∈ visited) :
    ∃ (lvl2 : Nat → Nat) (d2 : Nat),
      BfsInv adj frm tgt (rest ++ added)
        ((added.reverse.map fun n => (n, current)) ++ parent)
        (added.reverse ++ visited) lvl2 d2 ∧
      bfsMeasure adj (added.reverse ++ visited) (rest ++ added) <
        bfsMeasure adj visited (current :: rest) := by
  have hcur_vis : current ∈ visited := inv.queue_sub current (List.mem_cons_self _ _)
  have hdisj : ∀ n ∈ added, n ∉ visited := fun n hn => (hasb n hn).2
  have hvmem : ∀ v, v ∈ added.reverse ++ visited ↔ v ∈ added ∨ v ∈ visited := by
    intro v
    simp [List.mem_append]
  have hlvl_old : ∀ v ∈ visited, bfsLvlUpd lvl added current v = lvl v := by
    intro v hv
    unfold bfsLvlUpd
    exact if_neg (fun h => hdisj v h hv)
  have hlvl_new : ∀ n ∈ added, bfsLvlUpd lvl added current n = lvl current + 1 := by
    intro n hn
    unfold bfsLvlUpd
    exact if_pos hn
  obtain ⟨q1, q2, hq, hq1, hq2⟩ := inv.split
  have key : (∀ v, (∃ p, IsWalk adj frm v p ∧ p.length ≤ lvl current + 1) →
        v ∈ visited) ∧
      (∃ s1 s2, rest ++ added = s1 ++ s2 ∧
        (∀ v ∈ s1, bfsLvlUpd lvl added current v = lvl current) ∧
        (∀ v ∈ s2, bfsLvlUpd lvl added current v = lvl current + 1)) := by
    cases q1 with
    | nil =>
      simp only [List.nil_append] at hq
      have hlc : lvl current = d + 1 :=
        hq2 current (by rw [← hq]; exact List.mem_cons_self _ _)
      have hrest : ∀ v ∈ rest, lvl v = d + 1 := fun v hv =>
        hq2 v (by rw [← hq]; exact List.mem_cons_of_mem _ hv)
      constructor
      · rintro v ⟨p, hw, hplen⟩
        by_cases hshort : p.length ≤ d + 1
        · exact inv.saturated v ⟨p, hw, hshort⟩
        · have hp2 : 2 ≤ p.length := by omega
          obtain ⟨p', w, hpeq, hw', hwadj, hplen'⟩ := walk_split_last hw hp2
          have hw_vis : w ∈ visited := inv.saturated w ⟨p', hw', by omega⟩
          have hw_lvl : lvl w + 1 ≤ p'.length := inv.lvl_min w hw_vis p' hw'
          have hw_nq : w ∉ current :: rest := by
            intro hwq
            have hwl : lvl w = d + 1 := by
              rcases List.mem_cons.mp hwq with h | h
              · rw [h]
                exact hlc
              · exact hrest w h
            omega
          exact inv.closed w hw_vis hw_nq v hwadj
      · refine ⟨rest, added, rfl, ?_, ?_⟩
        · intro v hv
          rw [hlvl_old v (inv.queue_sub v (List.mem_cons_of_mem _ hv)),
            hrest v hv, hlc]
        · exact hlvl_new
    | cons c q1' =>
      rw [List.cons_append] at hq
      injection hq with hc hrest_eq
      subst hc
      have hlc : lvl current = d := hq1 current (List.mem_cons_self _ _)
      constructor
      · rintro v ⟨p, hw, hplen⟩
        exact inv.saturated v ⟨p, hw, by omega⟩
      · refine ⟨q1', q2 ++ added, by rw [hrest_eq, List.append_assoc], ?_, ?_⟩
        · intro v hv
          have hvvis : v ∈ visited := inv.queue_sub v
            (List.mem_cons_of_mem _ (by rw [hrest_eq]; exact List.mem_append_left _ hv))
          rw [hlvl_old v hvvis, hq1 v (List.mem_cons_of_mem _ hv), hlc]
        · intro v hv
          rcases List.mem_append.mp hv with h | h
          · have hvvis : v ∈ visited := inv.queue_sub v
              (List.mem_cons_of_mem _ (by rw [hrest_eq]; exact List.mem_append_right _ h))
            rw [hlvl_old v hvvis, hq2 v h, hlc]
          · rw [hlvl_new v h]
  obtain ⟨hsat2, hsplit2⟩ := key
  refine ⟨bfsLvlUpd lvl added current, lvl current,
    ⟨?_, ?_, ?_, ?_, hsplit2, ?_, ?_, ?_, ?_, ?_, ?_, ?_, ?_⟩, ?_⟩
  · exact (hvmem frm).mpr (Or.inr inv.frm_vis)
  · rw [hlvl_old frm inv.frm_vis]
    exact inv.lvl_frm
  · intro v hv hvf
    rcases (hvmem v).mp hv with hva | hvv
    · refine ⟨current, ?_, (hvmem current).mpr (Or.inr hcur_vis), (hasb v hva).1, ?_⟩
      · exact lookup_append_left
          (lookup_const_map added.reverse v (List.mem_reverse.mpr hva))
      · rw [hlvl_new v hva, hlvl_old current hcur_vis]
    · obtain ⟨u, hup, huvis, huadj, hulvl⟩ := inv.chain v hvv hvf
      refine ⟨u, ?_, (hvmem u).mpr (Or.inr huvis), huadj, ?_⟩
      · rw [lookup_append_right ?_]
        · exact hup
        · apply lookup_none_of_keys_ne
          intro p hp
          obtain ⟨n, hn, rfl⟩ := List.mem_map.mp hp
          intro heq
          have hnv : n = v := heq
          exact hdisj n (List.mem_reverse.mp hn) (by rw [hnv]; exact hvv)
      · rw [hlvl_old v hvv, hlvl_old u huvis]
        exact hulvl
  · intro v hv
    rcases List.mem_append.mp hv with h | h
    · exact (hvmem v).mpr (Or.inr (inv.queue_sub v (List.mem_cons_of_mem _ h)))
    · exact (hvmem v).mpr (Or.inl h)
  · intro u hu hunq n hn
    rcases (hvmem u).mp hu with hua | huv
    · exact absurd (List.mem_append_right _ hua) hunq
    · by_cases huc : u = current
      · subst huc
        rcases hcover n hn with h | h
        · exact (hvmem n).mpr (Or.inl h)
        · exact (hvmem n).mpr (Or.inr h)
      · have hu_nq : u ∉ current :: rest := by
          intro hmem
          rcases List.mem_cons.mp hmem with h | h
          · exact huc h
          · exact hunq (List.mem_append_left _ h)
        exact (hvmem n).mpr (Or.inr (inv.closed u huv hu_nq n hn))
  · intro v hv p hw
    rcases (hvmem v).mp hv with hva | hvv
    · rw [hlvl_new v hva]
      by_contra hcon
      push_neg at hcon
      have hvis : v ∈ visited := hsat2 v ⟨p, hw, by omega⟩
      exact hdisj v hva hvis
    · rw [hlvl_old v hvv]
      exact inv.lvl_min v hvv p hw
  · intro v hpex
    exact (hvmem v).mpr (Or.inr (hsat2 v hpex))
  · refine (List.nodup_reverse.mpr hand).append inv.vis_nodup ?_
    intro x hx1 hx2
    exact hdisj x (List.mem_reverse.mp hx1) hx2
  · intro v hv
    have hlen_new : (added.reverse ++ visited).length = added.length + visited.length := by
      simp
    rcases (hvmem v).mp hv with hva | hvv
    · rw [hlvl_new v hva]
      have h1 : lvl current + 1 ≤ visited.length := inv.vis_bound current hcur_vis
      have h2 : 0 < added.length := by
        cases added with
        | nil => simp at hva
        | cons a as => simp
      omega
    · rw [hlvl_old v hvv]
      have := inv.vis_bound v hvv
      omega
  · intro v hv
    rcases (hvmem v).mp hv with hva | hvv
    · exact Or.inr (neighbors_sub_univ (hasb v hva).1)
    · exact inv.vis_sub v hvv
  · rcases inv.tgt_queue with h | h
    · by_cases hta : tgt ∈ added
      · exact Or.inr (List.mem_append_right _ hta)
      · refine Or.inl ?_
        intro hmem
        rcases (hvmem tgt).mp hmem with h2 | h2
        · exact hta h2
        · exact h h2
    · rcases List.mem_cons.mp h with h2 | h2
      · exact absurd h2.symm hct
      · exact Or.inr (List.mem_append_left _ h2)
  · have hq_nd := inv.queue_nodup
    rw [List.nodup_cons] at hq_nd
    refine hq_nd.2.append hand ?_
    intro x hx1 hx2
    exact hdisj x hx2 (inv.queue_sub x (List.mem_cons_of_mem _ hx1))
  · have hmemflat : ∀ n ∈ added, n ∈ (adj.map Prod.snd).flatten ∧ n ∉ visited :=
      fun n hn => ⟨neighbors_sub_univ (hasb n hn).1, (hasb n hn).2⟩
    have hext := unvisCount_extend adj added visited hand hmemflat
    unfold bfsMeasure
    simp only [List.length_append, List.length_cons]
    omega

theorem visited_length_le {adj : List (Nat × List Nat)} {frm tgt : Nat}
    {queue : List Nat} {parent : List (Nat × Nat)} {visited : List Nat}
    {lvl : Nat → Nat} {d : Nat}
    (inv : BfsInv adj frm tgt queue parent visited lvl d) :
    visited.length ≤ (universeOf adj).length + 1 := by
  have h1 : visited.toFinset.card = visited.length :=
    List.toFinset_card_of_nodup inv.vis_nodup
  have hsub : visited.toFinset ⊆ (frm :: universeOf adj).toFinset := by
    intro x hx
    rw [List.mem_toFinset] at hx ⊢
    rcases inv.vis_sub x hx with h | h
    · rw [h]
      exact List.mem_cons_self _ _
    · exact List.mem_cons_of_mem _ (List.mem_dedup.mpr h)
  have h2 := Finset.card_le_card hsub
  have h3 : (frm :: universeOf adj).toFinset.card ≤ (frm :: universeOf adj).length :=
    List.toFinset_card_le _
  simp only [List.length_cons] at h3
  omega

theorem bfs_empty_unreachable {adj : List (Nat × List Nat)} {frm tgt : Nat}
    {parent : List (Nat × Nat)} {visited : List Nat} {lvl : Nat → Nat} {d : Nat}
    (inv : BfsInv adj frm tgt [] parent visited lvl d) :
    ¬ ReachableAdj adj frm tgt := by
  rintro ⟨p, hw⟩
  have hclosed : ∀ u ∈ visited, ∀ n, adjacent adj u n → n ∈ visited :=
    fun u hu n hn => inv.closed u hu (by simp) n hn
  have htv : tgt ∈ visited := walk_all_visited hclosed p frm tgt inv.frm_vis hw
  rcases inv.tgt_queue with h | h
  · exact h htv
  · simp at h

/-- Master lemma: from any state satisfying the invariant, with enough fuel,
the BFS loop returns a shortest walk when the target is reachable and `[]`
when it is not. -/
theorem bfsLoop_correct (adj : List (Nat × List Nat)) (frm tgt : Nat) (rfuel : Nat)
    (hrf : (universeOf adj).length + 2 ≤ rfuel) :
    ∀ (fuel : Nat) (queue : List Nat) (parent : List (Nat × Nat)) (visited : List Nat)
      (lvl : Nat → Nat) (d : Nat),
      BfsInv adj frm tgt queue parent visited lvl d →
      bfsMeasure adj visited queue ≤ fuel →
      (ReachableAdj adj frm tgt →
        IsWalk adj frm tgt (bfsLoop adj frm tgt rfuel fuel queue parent visited) ∧
        ∀ q, IsWalk adj frm tgt q →
          (bfsLoop adj frm tgt rfuel fuel queue parent visited).length ≤ q.length) ∧
      (¬ ReachableAdj adj frm tgt →
        bfsLoop adj frm tgt rfuel fuel queue parent visited = []) := by
  intro fuel
  induction fuel with
  | zero =>
    intro queue parent visited lvl d inv hm
    cases queue with
    | cons a b =>
      exfalso
      unfold bfsMeasure at hm
      simp only [List.length_cons] at hm
      omega
    | nil =>
      have hnr := bfs_empty_unreachable inv
      exact ⟨fun hr => absurd hr hnr, fun _ => rfl⟩
  | succ fuel ih =>
    intro queue parent visited lvl d inv hm
    cases queue with
    | nil =>
      have hnr := bfs_empty_unreachable inv
      exact ⟨fun hr => absurd hr hnr, fun _ => rfl⟩
    | cons current rest =>
      by_cases hct : current = tgt
      · have hred : bfsLoop adj frm tgt rfuel (fuel + 1) (current :: rest) parent visited =
            reconstructPath parent frm rfuel tgt [] := by
          simp only [bfsLoop, if_pos hct]
        have htv : tgt ∈ visited := by
          have h := inv.queue_sub current (List.mem_cons_self _ _)
          rw [hct] at h
          exact h
        have hvb : visited.length ≤ (universeOf adj).length + 1 := visited_length_le inv
        have hlvlb : lvl tgt + 1 ≤ visited.length := inv.vis_bound tgt htv
        obtain ⟨w, hweq, hwh, hwl, hwc, hwlen⟩ :=
          reconstruct_spec adj frm parent visited lvl inv.lvl_frm inv.chain
            (lvl tgt) tgt [] rfuel rfl htv (by omega)
        rw [List.append_nil] at hweq
        have hwalk : IsWalk adj frm tgt w := ⟨hwh, hwl, hwc⟩
        constructor
        · intro _
          rw [hred, hweq]
          refine ⟨hwalk, ?_⟩
          intro q hq
          have := inv.lvl_min tgt htv q hq
          omega
        · intro hnr
          exact absurd ⟨w, hwalk⟩ hnr
      · obtain ⟨added, henq, hand, hasb, hcover⟩ :=
          enqueueNbrs_spec current (neighborsOf adj current) rest parent visited
        obtain ⟨lvl2, d2, inv2, hdec⟩ := bfs_step inv hct hand hasb hcover
        have hred : bfsLoop adj frm tgt rfuel (fuel + 1) (current :: rest) parent visited =
            bfsLoop adj frm tgt rfuel fuel (rest ++ added)
              ((added.reverse.map fun n => (n, current)) ++ parent)
              (added.reverse ++ visited) := by
          simp only [bfsLoop, if_neg hct]
          rw [henq]
        rw [hred]
        exact ih (rest ++ added) _ _ lvl2 d2 inv2 (by omega)

theorem bfs_init (adj : List (Nat × List Nat)) (frm tgt : Nat) (hne : frm ≠ tgt) :
    BfsInv adj frm tgt [frm] [(frm, frm)] [frm] (fun _ => 0) 0 := by
  refine ⟨List.mem_cons_self _ _, rfl, ?_, fun v hv => hv,
    ⟨[frm], [], rfl, fun v _ => rfl, fun v hv => absurd hv (List.not_mem_nil v)⟩,
    ?_, ?_, ?_, List.nodup_singleton _, ?_, ?_, ?_, List.nodup_singleton _⟩
  · intro v hv hvf
    simp at hv
    exact absurd hv hvf
  · intro u hu hq _ _
    exact absurd hu hq
  · intro v _ p hw
    exact walk_length_pos hw
  · rintro v ⟨p, hw, hlen⟩
    have h1 : 1 ≤ p.length := walk_length_pos hw
    have h2 : p.length = 1 := by omega
    obtain ⟨a, rfl⟩ := List.length_eq_one.mp h2
    obtain ⟨h3, h4⟩ := walk_singleton hw
    rw [← h4, h3]
    exact List.mem_cons_self _ _
  · intro v _
    simp
  · intro v hv
    simp at hv
    exact Or.inl hv
  · refine Or.inl ?_
    intro h
    simp at h
    exact hne h.symm

/-- `findPath` is correct: `[from]` on equal endpoints, empty iff unreachable,
otherwise a shortest from-to walk. -/
theorem findPath_correct (adj : List (Nat × List Nat)) (frm tgt : Nat) :
    (frm = tgt → findPath adj frm tgt = [frm]) ∧
    (findPath adj frm tgt = [] ↔ ¬ ReachableAdj adj frm tgt) ∧
    (∀ p, IsWalk adj frm tgt p →
      IsWalk adj frm tgt (findPath adj frm tgt) ∧
      (findPath adj frm tgt).length ≤ p.length) := by
  by_cases hft : frm = tgt
  · subst hft
    have hfp : findPath adj frm frm = [frm] := by
      unfold findPath
      rw [if_pos rfl]
    refine ⟨fun _ => hfp, ?_, ?_⟩
    · rw [hfp]
      constructor
      · intro h
        simp at h
      · intro h
        exact absurd ⟨[frm], walk_nil_walk adj frm⟩ h
    · intro p hw
      rw [hfp]
      exact ⟨walk_nil_walk adj frm, walk_length_pos hw⟩
  · have hfp : findPath adj frm tgt = bfsLoop adj frm tgt ((universeOf adj).length + 2)
        (2 * (universeOf adj).length + 1) [frm] [(frm, frm)] [frm] := by
      unfold findPath
      rw [if_neg hft]
    have hinit := bfs_init adj frm tgt hft
    have hmeas : bfsMeasure adj [frm] [frm] ≤ 2 * (universeOf adj).length + 1 := by
      unfold bfsMeasure
      have := unvisCount_le adj [frm]
      simp only [List.length_cons, List.length_nil]
      omega
    have hmain := bfsLoop_correct adj frm tgt ((universeOf adj).length + 2) (by omega)
      (2 * (universeOf adj).length + 1) [frm] [(frm, frm)] [frm] (fun _ => 0) 0 hinit hmeas
    refine ⟨fun h => absurd h hft, ?_, ?_⟩
    · constructor
      · intro hempty hr
        have hwalk := (hmain.1 hr).1
        rw [← hfp, hempty] at hwalk
        obtain ⟨hh, _, _⟩ := hwalk
        simp at hh
      · intro hnr
        rw [hfp]
        exact hmain.2 hnr
    · intro p hw
      have hr : ReachableAdj adj frm tgt := ⟨p, hw⟩
      rw [hfp]
      exact ⟨(hmain.1 hr).1, (hmain.1 hr).2 p hw⟩

theorem findPath_getLast {adj : List (Nat × List Nat)} {frm tgt : Nat}
    (h : findPath adj frm tgt ≠ []) :
    (findPath adj frm tgt).getLast? = some tgt := by
  have hfc := findPath_correct adj frm tgt
  have hr : ReachableAdj adj frm tgt := by
    by_contra hnr
    exact h (hfc.2.1.mpr hnr)
  obtain ⟨p, hp⟩ := hr
  exact ((hfc.2.2 p hp).1).2.1

/-- Triangle graph used to instantiate the BFS theorem. -/
def adjC3 : List (Nat × List Nat) := [(1, [2, 3]), (2, [1, 3]), (3, [1, 2])]

/-- **C3.** `TopologyManager::findPath(from, to)` returns `[from]` when
`from = to`, returns the empty vector exactly when `to` is unreachable from
`from` through the adjacency relation, and otherwise returns a from-to path
(both endpoints included) of minimal hop length among all from-to paths. -/
theorem findPath_spec (adj : List (Nat × List Nat)) (frm tgt : Nat) :
    (frm = tgt → findPath adj frm tgt = [frm]) ∧
    (findPath adj frm tgt = [] ↔ ¬ ReachableAdj adj frm tgt) ∧
    (∀ p, IsWalk adj frm tgt p →
      IsWalk adj frm tgt (findPath adj frm tgt) ∧
      (findPath adj frm tgt).length ≤ p.length) :=
  findPath_correct adj frm tgt

/-- Concrete instances of `findPath_spec` on the triangle graph, discharging
each inner hypothesis. -/
theorem findPath_spec_witness :
    findPath adjC3 1 1 = [1] ∧
    (IsWalk adjC3 1 3 (findPath adjC3 1 3) ∧ (findPath adjC3 1 3).length ≤ 3) ∧
    ¬ ReachableAdj adjC3 1 4 :=
  ⟨(findPath_spec adjC3 1 1).1 rfl,
   (findPath_spec adjC3 1 3).2.2 [1, 2, 3] (by decide),
   (findPath_spec adjC3 1 4).2.1.mp (by decide)⟩

/-! ### Claims C4 and C5: routing over the computed route -/

theorem getD_one_of_len_two {l : List Nat} {t : Nat} (hlen : l.length = 2)
    (hlast : l.getLast? = some t) : l.getD 1 0 = t := by
  cases l with
  | nil => simp at hlen
  | cons a l2 =>
    cases l2 with
    | nil => simp at hlen
    | cons b l3 =>
      cases l3 with
      | cons c l4 =>
        exfalso
        simp only [List.length_cons] at hlen
        omega
      | nil =>
        rw [List.getLast?_cons_cons] at hlast
        simp at hlast
        simp [List.getD, hlast]

/-- Router state showing that a length-1 route is sent, not failed: the self
node has an active connection entry for itself and an empty topology. -/
def ctxC4 : RouterCtx := { selfID := 7, peers := [], conns := [7], adj := [] }

/-- Router state with a 1-2-3 line topology; 2 is the only transport-connected
peer and nobody is on the roster. -/
def ctxC4b : RouterCtx :=
  { selfID := 1, peers := [], conns := [2], adj := [(1, [2]), (2, [1, 3]), (3, [2])] }

/-- Counterexample to C4's length-1 branch: with route `[7]` (self-route),
`routeMessageMultiHop` returns the transport's verdict — here success — rather
than unconditional failure. -/
theorem routeMultiHop_len1_counterexample :
    (findRoute ctxC4 7).length = 1 ∧ (routeMessageMultiHop ctxC4 7 0).ok = true := by
  decide

/-- **C4 (amended).** Shortest-path routing: empty route fails without
touching the transport; a length-1 route (self only) is handed to the
transport targeting the target itself (NOT an unconditional failure); a route
of length ≥ 2 is handed to the transport targeting the node at index 1 and
the hop statistic grows by route length minus 1; when the route has length 2
that next hop is the target itself. -/
theorem routeMessageMultiHop_spec (ctx : RouterCtx) (t : Nat) (hop : Nat) :
    (findRoute ctx t = [] →
      routeMessageMultiHop ctx t hop =
        { ok := false, totalHopCount := hop, sends := [] }) ∧
    ((findRoute ctx t).length = 1 →
      routeMessageMultiHop ctx t hop =
        { ok := sendMessageToPeer ctx t, totalHopCount := hop, sends := [t] }) ∧
    (2 ≤ (findRoute ctx t).length →
      routeMessageMultiHop ctx t hop =
        { ok := sendMessageToPeer ctx ((findRoute ctx t).getD 1 0)
          totalHopCount := hop + ((findRoute ctx t).length - 1)
          sends := [(findRoute ctx t).getD 1 0] } ∧
      ((findRoute ctx t).length = 2 → (findRoute ctx t).getD 1 0 = t)) := by
  refine ⟨?_, ?_, ?_⟩
  · intro hemp
    unfold routeMessageMultiHop
    rw [hemp]
    rfl
  · intro hlen1
    have hne : (findRoute ctx t).isEmpty = false := by
      cases h : findRoute ctx t with
      | nil => rw [h] at hlen1; simp at hlen1
      | cons a l => rfl
    unfold routeMessageMultiHop
    simp only [hne, Bool.false_eq_true, if_false, hlen1, if_pos]
  · intro hlen2
    have hne : (findRoute ctx t).isEmpty = false := by
      cases h : findRoute ctx t with
      | nil => rw [h] at hlen2; simp at hlen2
      | cons a l => rfl
    have hne1 : ¬ (findRoute ctx t).length = 1 := by omega
    constructor
    · unfold routeMessageMultiHop
      simp only [hne, Bool.false_eq_true, if_false, if_neg hne1]
    · intro hlen2eq
      unfold findRoute at hlen2eq ⊢
      by_cases hp : hasPeer ctx t = true
      · rw [if_pos hp]
        rfl
      · rw [if_neg hp] at hlen2eq ⊢
        have hnnil : findPath ctx.adj ctx.selfID t ≠ [] := by
          intro hnil
          rw [hnil] at hlen2eq
          simp at hlen2eq
        exact getD_one_of_len_two hlen2eq (findPath_getLast hnnil)

/-- Concrete instances of `routeMessageMultiHop_spec`, one per branch. -/
theorem routeMessageMultiHop_spec_witness :
    findRoute ctxC4b 9 = [] ∧
    routeMessageMultiHop ctxC4b 9 0 = { ok := false, totalHopCount := 0, sends := [] } ∧
    (findRoute ctxC4 7).length = 1 ∧
    routeMessageMultiHop ctxC4 7 0 =
      { ok := sendMessageToPeer ctxC4 7, totalHopCount := 0, sends := [7] } ∧
    2 ≤ (findRoute ctxC4b 2).length ∧
    ((findRoute ctxC4b 2).length = 2 → (findRoute ctxC4b 2).getD 1 0 = 2) :=
  ⟨by decide,
   (routeMessageMultiHop_spec ctxC4b 9 0).1 (by decide),
   by decide,
   (routeMessageMultiHop_spec ctxC4 7 0).2.1 (by decide),
   by decide,
   ((routeMessageMultiHop_spec ctxC4b 2 0).2.2 (by decide)).2⟩

/-- Roster-only reachability: node 2 is on the roster but the topology is
empty, so `findPath` finds nothing. -/
def ctxC5 : RouterCtx := { selfID := 1, peers := [2], conns := [], adj := [] }

/-- Counterexample to C5 as stated: `isReachable` is true and `getHopCount`
is 1 while `findPath` from the local node returns the empty vector (the
rostered-peer short-circuit in `findRoute` never consults the topology). -/
theorem reachability_counterexample :
    isReachable ctxC5 2 = true ∧ findPath ctxC5.adj ctxC5.selfID 2 = [] ∧
    getHopCount ctxC5 2 = 1 := by
  decide

/-- **C5 (amended).** `isReachable`/`getHopCount` are computed from
`findRoute`, which short-circuits rostered peers to `[self, target]`: for a
rostered target they return `true` and `1` regardless of the topology; only
for non-rostered targets do they reduce to `findPath` as the spec claims. -/
theorem reachability_spec (ctx : RouterCtx) (t : Nat) :
    (hasPeer ctx t = true →
      isReachable ctx t = true ∧ getHopCount ctx t = 1) ∧
    (hasPeer ctx t = false →
      ((isReachable ctx t = true ↔ findPath ctx.adj ctx.selfID t ≠ []) ∧
        getHopCount ctx t =
          (if findPath ctx.adj ctx.selfID t = [] then (-1 : Int)
           else (findPath ctx.adj ctx.selfID t).length - 1))) := by
  constructor
  · intro hp
    unfold isReachable getHopCount findRoute
    rw [if_pos hp]
    exact ⟨rfl, rfl⟩
  · intro hp
    have hp' : ¬ hasPeer ctx t = true := by rw [hp]; simp
    unfold isReachable getHopCount findRoute
    rw [if_neg hp']
    constructor
    · cases h : findPath ctx.adj ctx.selfID t with
      | nil => simp [h]
      | cons a l => simp [h]
    · cases h : findPath ctx.adj ctx.selfID t with
      | nil => simp [h]
      | cons a l => simp [h]

/-- Concrete instances of `reachability_spec`: both the rostered and the
non-rostered branch. -/
theorem reachability_spec_witness :
    hasPeer ctxC5 2 = true ∧
    (isReachable ctxC5 2 = true ∧ getHopCount ctxC5 2 = 1) ∧
    hasPeer ctxC4b 3 = false ∧
    ((isReachable ctxC4b 3 = true ↔ findPath ctxC4b.adj ctxC4b.selfID 3 ≠ []) ∧
      getHopCount ctxC4b 3 =
        (if findPath ctxC4b.adj ctxC4b.selfID 3 = [] then (-1 : Int)
         else (findPath ctxC4b.adj ctxC4b.selfID 3).length - 1)) :=
  ⟨by decide,
   (reachability_spec ctxC5 2).1 (by decide),
   by decide,
   (reachability_spec ctxC4b 3).2 (by decide)⟩

theorem removeNode_not_mem {t : Topo} {id : Nat}
    (h : mapMem t.nodeRegistry id = false) : removeNode t id = (false, t) := by
  simp [removeNode, h]

/-- Symmetric state with adjacency keys (1 and 2) not in the registry. -/
def topoEx7 : Topo := { nodeRegistry := [], adjacencyList := [(1, [2]), (2, [1])] }

/-- Symmetric state where node 3 has adjacency but is not registered. -/
def topoExR : Topo :=
  { nodeRegistry := [(1, { host := "h", port := 1 }), (2, { host := "h", port := 2 })],
    adjacencyList := [(1, [3]), (3, [1])] }

/-- Counterexample to claim C7 as stated: on symmetric states with
unregistered adjacency keys, `addNode` (which ASSIGNS a fresh empty adjacency
entry) and `repairTopology` (whose validation drops orphan adjacency entries)
both break adjacency symmetry. -/
theorem topology_sym_counterexample :
    SymAdj topoEx7 ∧
    ¬ SymAdj (addNode topoEx7 1 { host := "h", port := 1 }).2 ∧
    SymAdj topoExR ∧
    ¬ SymAdj (repairTopology topoExR) := by
  refine ⟨(symB_iff _).mp (by decide), ?_, (symB_iff _).mp (by decide), ?_⟩
  · intro h
    exact absurd ((symB_iff _).mpr h) (by decide)
  · intro h
    exact absurd ((symB_iff _).mpr h) (by decide)

/-- Claim C7 (amended): for every registered id, `removeNode` removes it from
the registry, from the adjacency map and from every other node's neighbour
set, and a second call fails; `removeNode`, `addEdge` and `removeEdge`
preserve adjacency symmetry on every symmetric state, while `addNode` and
`repairTopology` preserve it provided every adjacency key is registered
(without that closure the counterexample applies). -/
theorem topology_ops_spec (t : Topo) (id : Nat)
    (hsym : SymAdj t) (hclosed : AdjClosed t)
    (hid : mapMem t.nodeRegistry id = true) :
    (removeNode t id).1 = true ∧
    mapMem (removeNode t id).2.nodeRegistry id = false ∧
    mapMem (removeNode t id).2.adjacencyList id = false ∧
    (∀ a, id ∉ adjSet (removeNode t id).2 a) ∧
    (removeNode (removeNode t id).2 id).1 = false ∧
    (∀ id2 addr, SymAdj (addNode t id2 addr).2) ∧
    (∀ id2, SymAdj (removeNode t id2).2) ∧
    (∀ a b, SymAdj (addEdge t a b)) ∧
    (∀ a b, SymAdj (removeEdge t a b)) ∧
    SymAdj (repairTopology t) := by
  have hrem : removeNode t id = (true, removeNodeFromGraph t id) := by
    unfold removeNode
    rw [if_pos hid]
  have hregGone : mapMem (removeNode t id).2.nodeRegistry id = false := by
    rw [hrem]
    show mapMem (mapErase t.nodeRegistry id) id = false
    unfold mapMem
    rw [lookup_mapErase_self]
    rfl
  refine ⟨by rw [hrem], hregGone, ?_, ?_, ?_, ?_, ?_, ?_, ?_, ?_⟩
  · rw [hrem]
    show mapMem ((mapErase t.adjacencyList id).map fun p => (p.1, setErase id p.2)) id
      = false
    unfold mapMem
    rw [lookup_map_value, lookup_mapErase_self]
    rfl
  · intro a ha
    rw [hrem] at ha
    rw [mem_adjSet_removeNodeFromGraph] at ha
    exact ha.2.1 rfl
  · rw [removeNode_not_mem hregGone]
  · exact fun id2 addr => sym_addNode hsym hclosed id2 addr
  · exact fun id2 => sym_removeNode hsym id2
  · exact fun a b => sym_addEdge hsym a b
  · exact fun a b => sym_removeEdge hsym a b
  · exact sym_repairTopology hsym hclosed

/-- A well-formed two-node topology with the single edge 1–2. -/
def tEx7W : Topo :=
  { nodeRegistry := [(1, { host := "h", port := 1 }), (2, { host := "h", port := 2 })],
    adjacencyList := [(1, [2]), (2, [1])] }

/-- Witness for C7 (amended) at the concrete two-node topology. -/
theorem topology_ops_spec_witness :
    (removeNode tEx7W 1).1 = true ∧
    mapMem (removeNode tEx7W 1).2.nodeRegistry 1 = false ∧
    mapMem (removeNode tEx7W 1).2.adjacencyList 1 = false ∧
    1 ∉ adjSet (removeNode tEx7W 1).2 2 ∧
    (removeNode (removeNode tEx7W 1).2 1).1 = false ∧
    symB (addNode tEx7W 3 { host := "h", port := 3 }).2 = true ∧
    symB (removeNode tEx7W 2).2 = true ∧
    symB (addEdge tEx7W 1 2) = true ∧
    symB (removeEdge tEx7W 1 2) = true ∧
    symB (repairTopology tEx7W) = true := by
  have h := topology_ops_spec tEx7W 1 ((symB_iff _).mp (by decide)) (by decide) (by decide)
  exact ⟨h.1, h.2.1, h.2.2.1, h.2.2.2.1 2, h.2.2.2.2.1,
    (symB_iff _).mpr (h.2.2.2.2.2.1 3 { host := "h", port := 3 }),
    (symB_iff _).mpr (h.2.2.2.2.2.2.1 2),
    (symB_iff _).mpr (h.2.2.2.2.2.2.2.1 1 2),
    (symB_iff _).mpr (h.2.2.2.2.2.2.2.2.1 1 2),
    (symB_iff _).mpr h.2.2.2.2.2.2.2.2.2⟩

/-! ### Claim C1: acknowledgment behaviour -/

/-- A concrete pending reliable-message record. -/
def ackRecEx : ReliableMessage :=
  { messageID := 1,
    message := { type := 5, senderID := 1, receiverID := 2, payload := [], timestamp := 0 },
    destinationID := 2, ackStatus := .PENDING, retryCount := 0,
    sendTime := 0, lastRetry := 0 }

/-- A one-entry pending table for exercising `acknowledgeMessage`. -/
def ackStateEx : ReliableState :=
  { pendingMessages := [(1, ackRecEx)],
    acknowledgedMessages := 0, failedMessages := 0,
    deliveredEvents := [], failedEvents := [], resendEvents := [] }

/-- Counterexample to claim C1 as stated: acknowledging message id 1 twice
fires the delivered callback twice, not exactly once — the second call
returns true but fires the callback again, because `acknowledgeMessage` has
no already-acknowledged check. -/
theorem acknowledgeMessage_twice_counterexample :
    (acknowledgeMessage ackStateEx 1 2).2 = true ∧
    (acknowledgeMessage (acknowledgeMessage ackStateEx 1 2).1 1 2).2 = true ∧
    ((acknowledgeMessage (acknowledgeMessage ackStateEx 1 2).1 1 2).1).deliveredEvents.length = 2 ∧
    ((acknowledgeMessage (acknowledgeMessage ackStateEx 1 2).1 1 2).1).deliveredEvents.length ≠ 1 := by
  decide

/-- Claim C1 (amended): for an id present in the pending table,
`acknowledgeMessage` sets the record Acknowledged, bumps the counter, fires
the delivered callback and returns true; an absent id returns false with no
effect; and a second call for the same id returns true but fires the
delivered callback AGAIN, so acknowledging the same id twice fires the
callback exactly twice. -/
theorem acknowledgeMessage_spec (st : ReliableState) (mid sid : Nat) :
    (∀ r, List.lookup mid st.pendingMessages = some r →
      acknowledgeMessage st mid sid =
        ({ st with
            pendingMessages := mapInsert st.pendingMessages mid
              { r with ackStatus := .ACKNOWLEDGED }
            acknowledgedMessages := st.acknowledgedMessages + 1
            deliveredEvents := st.deliveredEvents ++ [(mid, sid)] }, true)) ∧
    (List.lookup mid st.pendingMessages = none →
      acknowledgeMessage st mid sid = (st, false)) ∧
    (∀ r, List.lookup mid st.pendingMessages = some r →
      (acknowledgeMessage (acknowledgeMessage st mid sid).1 mid sid).2 = true ∧
      ((acknowledgeMessage (acknowledgeMessage st mid sid).1 mid sid).1).deliveredEvents =
        st.deliveredEvents ++ [(mid, sid)] ++ [(mid, sid)]) := by
  refine ⟨?_, ?_, ?_⟩
  · intro r hr
    unfold acknowledgeMessage
    rw [hr]
  · intro hr
    unfold acknowledgeMessage
    rw [hr]
  · intro r hr
    have key : ∀ s : ReliableState, ∀ q : ReliableMessage,
        List.lookup mid s.pendingMessages = some q →
        acknowledgeMessage s mid sid =
          ({ s with
              pendingMessages := mapInsert s.pendingMessages mid
                { q with ackStatus := .ACKNOWLEDGED }
              acknowledgedMessages := s.acknowledgedMessages + 1
              deliveredEvents := s.deliveredEvents ++ [(mid, sid)] }, true) := by
      intro s q hq
      unfold acknowledgeMessage
      rw [hq]
    have h1 := key st r hr
    have h2 : List.lookup mid (acknowledgeMessage st mid sid).1.pendingMessages =
        some { r with ackStatus := .ACKNOWLEDGED } := by
      rw [h1]
      exact lookup_mapInsert_self _ _ _
    have h3 := key (acknowledgeMessage st mid sid).1 _ h2
    constructor
    · rw [h3]
    · rw [h3]
      show (acknowledgeMessage st mid sid).1.deliveredEvents ++ [(mid, sid)] = _
      rw [h1]

/-- Witness for C1 (amended): both branches and the double-fire consequence
at the concrete one-entry table. -/
theorem acknowledgeMessage_spec_witness :
    (acknowledgeMessage ackStateEx 1 2).2 = true ∧
    acknowledgeMessage ackStateEx 99 2 = (ackStateEx, false) ∧
    ((acknowledgeMessage (acknowledgeMessage ackStateEx 1 2).1 1 2).1).deliveredEvents =
      [(1, 2), (1, 2)] := by
  refine ⟨?_, ?_, ?_⟩
  · rw [(acknowledgeMessage_spec ackStateEx 1 2).1 ackRecEx (by decide)]
  · exact (acknowledgeMessage_spec ackStateEx 99 2).2.1 (by decide)
  · rw [((acknowledgeMessage_spec ackStateEx 1 2).2.2 ackRecEx (by decide)).2]
    decide

/-! ### Claim C6: heartbeat handling -/

/-- Concrete surrounding state for the C6 counterexample: the local node is 1,
peer 2's liveness record was last refreshed at time 5. -/
def hbCtxEx : HeartbeatCtx :=
  { selfID := 1, selfLastSeen := 0, peerLastSeen := [(2, 5)], sent := [] }

/-- A heartbeat from peer 2 as handled at time 10. -/
def hbMsgEx : Message :=
  { type := HEARTBEAT, senderID := 2, receiverID := 1, payload := [], timestamp := 7 }

/-- Counterexample to claim C6 as stated: handling a heartbeat from peer 2 at
time 10 leaves peer 2's liveness record untouched (still 5) — the handler
calls the argumentless `Node::updateLastSeen()`, which refreshes only the
local node's own timestamp. -/
theorem handleHeartbeat_counterexample :
    List.lookup 2 (handleHeartbeat hbCtxEx hbMsgEx 10).peerLastSeen = some 5 ∧
    List.lookup 2 (handleHeartbeat hbCtxEx hbMsgEx 10).peerLastSeen ≠ some 10 ∧
    (handleHeartbeat hbCtxEx hbMsgEx 10).peerLastSeen = hbCtxEx.peerLastSeen ∧
    (handleHeartbeat hbCtxEx hbMsgEx 10).selfLastSeen = 10 := by
  decide

/-- Claim C6 (amended): on a received heartbeat the handler refreshes the
LOCAL node's own last-seen timestamp (the sender's per-peer liveness record
is not touched by this handler), and replies with a `Heartbeat` message
addressed and sent to the message's sender. -/
theorem handleHeartbeat_spec (ctx : HeartbeatCtx) (msg : Message) (now : Nat) :
    (handleHeartbeat ctx msg now).selfLastSeen = now ∧
    (handleHeartbeat ctx msg now).peerLastSeen = ctx.peerLastSeen ∧
    (handleHeartbeat ctx msg now).sent = ctx.sent ++
      [(msg.senderID,
        { type := HEARTBEAT, senderID := ctx.selfID, receiverID := msg.senderID,
          payload := [], timestamp := now })] :=
  ⟨rfl, rfl, rfl⟩

/-! ### Claim C8: failure detection sweep -/

/-- The per-record effect of the `detectFailedNodes` in-lock sweep. -/
def sweepRecord (now timeout : Nat) (info : NodeInfo) : NodeInfo :=
  if info.state ≠ NodeState.ACTIVE then info
  else if nodeStale now timeout info.lastSeen then
    { info with failureCount := info.failureCount + 1 }
  else { info with failureCount := 0 }

/-- A record is collected for forced removal by the sweep iff it is Active,
stale, and its bumped failure count reaches the threshold 3. -/
def sweepCollects (now timeout : Nat) (info : NodeInfo) : Prop :=
  info.state = NodeState.ACTIVE ∧ nodeStale now timeout info.lastSeen ∧
    3 ≤ info.failureCount + 1

instance (now timeout : Nat) (info : NodeInfo) :
    Decidable (sweepCollects now timeout info) := by
  unfold sweepCollects
  infer_instance

theorem detectSweep_eq (now timeout : Nat) (reg : List (Nat × NodeInfo)) :
    detectSweep now timeout reg =
      (reg.map fun p => (p.1, sweepRecord now timeout p.2),
       (reg.filter fun p => decide (sweepCollects now timeout p.2)).map Prod.fst) := by
  induction reg with
  | nil => rfl
  | cons p rest ih =>
    obtain ⟨id, info⟩ := p
    simp only [detectSweep, ih]
    by_cases h1 : info.state ≠ NodeState.ACTIVE
    · have hcol : ¬ sweepCollects now timeout info := fun hc => h1 hc.1
      simp [h1, sweepRecord, hcol]
    · have hact : info.state = NodeState.ACTIVE := not_not.mp h1
      by_cases h2 : nodeStale now timeout info.lastSeen
      · by_cases h3 : 3 ≤ info.failureCount + 1
        · have hcol : sweepCollects now timeout info := ⟨hact, h2, h3⟩
          simp [h1, h2, h3, sweepRecord, hcol, hact]
        · have hcol : ¬ sweepCollects now timeout info := fun hc => h3 hc.2.2
          simp [h1, h2, h3, sweepRecord, hcol, hact]
      · have hcol : ¬ sweepCollects now timeout info := fun hc => h2 hc.2.1
        simp [h1, h2, sweepRecord, hcol, hact]

theorem removeForced_fold (ids : List Nat) :
    ∀ (reg : List (Nat × NodeInfo)) (evs : List Nat),
      ids.Nodup → (∀ id ∈ ids, (List.lookup id reg).isSome) →
      (ids.foldl removeForcedStep (reg, evs)).2 = evs ++ ids ∧
      (∀ id, List.lookup id (ids.foldl removeForcedStep (reg, evs)).1 =
        if id ∈ ids then none else List.lookup id reg) := by
  induction ids with
  | nil =>
    intro reg evs _ _
    simp
  | cons id0 rest ih =>
    intro reg evs hnd hfound
    simp only [List.nodup_cons] at hnd
    obtain ⟨v0, hv0⟩ := Option.isSome_iff_exists.mp (hfound id0 (by simp))
    have hstep : removeForcedStep (reg, evs) id0 = (mapErase reg id0, evs ++ [id0]) := by
      unfold removeForcedStep
      rw [hv0]
    simp only [List.foldl_cons, hstep]
    have hrest : ∀ id ∈ rest, (List.lookup id (mapErase reg id0)).isSome := by
      intro id hid
      have hne : id ≠ id0 := fun hh => hnd.1 (hh ▸ hid)
      rw [lookup_mapErase_ne _ _ _ hne]
      exact hfound id (by simp [hid])
    obtain ⟨h2a, h2b⟩ := ih (mapErase reg id0) (evs ++ [id0]) hnd.2 hrest
    refine ⟨by rw [h2a]; simp, ?_⟩
    intro id
    rw [h2b id]
    by_cases hmem : id ∈ rest
    · simp [hmem]
    · by_cases hid0 : id = id0
      · subst hid0
        simp [hmem, lookup_mapErase_self]
      · simp [hmem, hid0, lookup_mapErase_ne reg id0 id hid0]

/-- A continuously failing Active peer record: last seen at time 0. -/
def nodeRecEx : NodeInfo :=
  { nodeID := 5, host := "peer", port := 9000, state := .ACTIVE,
    lastSeen := 0, joinTime := 0, failureCount := 0 }

/-- Claim C8: `detectFailedNodes(timeout)` bumps `failureCount` for every
Active record staler than `timeout`, resets `failureCount` to 0 for the
fresh Active records, leaves non-Active records alone, and force-removes
(with the node-failed callback) exactly the records whose bumped count
reaches 3; consequently (given every count is at most 2, as in every
reachable state) no surviving record has a count at the threshold.  Three
successive sweeps at 100-second ticks with timeout 90 remove a continuously
stale Active peer on the third sweep. -/
theorem detectFailedNodes_spec (now timeout : Nat) (reg : List (Nat × NodeInfo))
    (hnd : (reg.map Prod.fst).Nodup) :
    (∀ id info, List.lookup id reg = some info →
      (sweepCollects now timeout info →
        List.lookup id (detectFailedNodes now timeout reg).1 = none ∧
        id ∈ (detectFailedNodes now timeout reg).2) ∧
      (info.state = NodeState.ACTIVE → nodeStale now timeout info.lastSeen →
        info.failureCount + 1 < 3 →
        List.lookup id (detectFailedNodes now timeout reg).1 =
          some { info with failureCount := info.failureCount + 1 } ∧
        id ∉ (detectFailedNodes now timeout reg).2) ∧
      (info.state = NodeState.ACTIVE → ¬ nodeStale now timeout info.lastSeen →
        List.lookup id (detectFailedNodes now timeout reg).1 =
          some { info with failureCount := 0 } ∧
        id ∉ (detectFailedNodes now timeout reg).2) ∧
      (info.state ≠ NodeState.ACTIVE →
        List.lookup id (detectFailedNodes now timeout reg).1 = some info ∧
        id ∉ (detectFailedNodes now timeout reg).2)) ∧
    ((∀ p ∈ reg, p.2.failureCount ≤ 2) →
      ∀ id info2, List.lookup id (detectFailedNodes now timeout reg).1 = some info2 →
        info2.failureCount < 3) ∧
    ((detectFailedNodes 100 90 [(5, nodeRecEx)]).2 = [] ∧
      (detectFailedNodes 200 90 (detectFailedNodes 100 90 [(5, nodeRecEx)]).1).2 = [] ∧
      (detectFailedNodes 300 90
        (detectFailedNodes 200 90 (detectFailedNodes 100 90 [(5, nodeRecEx)]).1).1).2 = [5] ∧
      (detectFailedNodes 300 90
        (detectFailedNodes 200 90 (detectFailedNodes 100 90 [(5, nodeRecEx)]).1).1).1 = []) := by
  have hsweep := detectSweep_eq now timeout reg
  have hids_nodup : ((reg.filter fun p =>
      decide (sweepCollects now timeout p.2)).map Prod.fst).Nodup :=
    hnd.sublist ((List.filter_sublist _).map Prod.fst)
  have hids_found : ∀ id ∈ (reg.filter fun p =>
      decide (sweepCollects now timeout p.2)).map Prod.fst,
      (List.lookup id (reg.map fun p => (p.1, sweepRecord now timeout p.2))).isSome := by
    intro id hid
    simp only [List.mem_map, List.mem_filter] at hid
    obtain ⟨⟨k, w⟩, ⟨hmem, _⟩, rfl⟩ := hid
    have hs := lookup_isSome_of_mem hmem
    rw [lookup_map_value]
    obtain ⟨u, hu⟩ := Option.isSome_iff_exists.mp hs
    rw [hu]
    rfl
  have hfold := removeForced_fold _ (reg.map fun p => (p.1, sweepRecord now timeout p.2))
    [] hids_nodup hids_found
  have hres : detectFailedNodes now timeout reg =
      ((reg.filter fun p => decide (sweepCollects now timeout p.2)).map Prod.fst).foldl
        removeForcedStep ((reg.map fun p => (p.1, sweepRecord now timeout p.2)), []) := by
    unfold detectFailedNodes
    rw [hsweep]
  have hmemids : ∀ id info, List.lookup id reg = some info →
      (id ∈ (reg.filter fun p => decide (sweepCollects now timeout p.2)).map Prod.fst ↔
        sweepCollects now timeout info) := by
    intro id info hlook
    constructor
    · intro hid
      simp only [List.mem_map, List.mem_filter] at hid
      obtain ⟨⟨k, w⟩, ⟨hmem, hcol⟩, rfl⟩ := hid
      have := value_eq_of_lookup_of_mem hnd hlook hmem
      subst this
      exact of_decide_eq_true hcol
    · intro hcol
      refine List.mem_map.mpr ⟨(id, info), List.mem_filter.mpr
        ⟨lookup_some_mem hlook, decide_eq_true hcol⟩, rfl⟩
  refine ⟨?_, ?_, by decide⟩
  · intro id info hlook
    have hmapped : List.lookup id (reg.map fun p => (p.1, sweepRecord now timeout p.2)) =
        some (sweepRecord now timeout info) := by
      rw [lookup_map_value, hlook]
      rfl
    have hfin : List.lookup id (detectFailedNodes now timeout reg).1 =
        if id ∈ (reg.filter fun p => decide (sweepCollects now timeout p.2)).map Prod.fst
        then none
        else some (sweepRecord now timeout info) := by
      rw [hres]
      rw [hfold.2 id]
      by_cases hid : id ∈ (reg.filter fun p =>
          decide (sweepCollects now timeout p.2)).map Prod.fst
      · simp [hid]
      · simp [hid, hmapped]
    have hevs : (detectFailedNodes now timeout reg).2 =
        (reg.filter fun p => decide (sweepCollects now timeout p.2)).map Prod.fst := by
      rw [hres, hfold.1]
      simp
    refine ⟨?_, ?_, ?_, ?_⟩
    · intro hcol
      have hid := (hmemids id info hlook).mpr hcol
      rw [hfin, if_pos hid, hevs]
      exact ⟨rfl, hid⟩
    · intro hact hstale hlt
      have hncol : ¬ sweepCollects now timeout info := fun hc => by
        have := hc.2.2
        omega
      have hid := fun hh => hncol ((hmemids id info hlook).mp hh)
      rw [hfin, if_neg hid, hevs]
      refine ⟨?_, hid⟩
      unfold sweepRecord
      simp [hact, hstale]
    · intro hact hfresh
      have hncol : ¬ sweepCollects now timeout info := fun hc => hfresh hc.2.1
      have hid := fun hh => hncol ((hmemids id info hlook).mp hh)
      rw [hfin, if_neg hid, hevs]
      refine ⟨?_, hid⟩
      unfold sweepRecord
      simp [hact, hfresh]
    · intro hact
      have hncol : ¬ sweepCollects now timeout info := fun hc => hact hc.1
      have hid := fun hh => hncol ((hmemids id info hlook).mp hh)
      rw [hfin, if_neg hid, hevs]
      refine ⟨?_, hid⟩
      unfold sweepRecord
      simp [hact]
  · intro hbound id info2 hlook2
    rw [hres, hfold.2 id] at hlook2
    by_cases hid : id ∈ (reg.filter fun p =>
        decide (sweepCollects now timeout p.2)).map Prod.fst
    · simp [hid] at hlook2
    · rw [if_neg hid, lookup_map_value] at hlook2
      cases hlook : List.lookup id reg with
      | none => rw [hlook] at hlook2; simp at hlook2
      | some info =>
        rw [hlook] at hlook2
        have hval : sweepRecord now timeout info = info2 := by simpa using hlook2
        have hncol : ¬ sweepCollects now timeout info :=
          fun hc => hid ((hmemids id info hlook).mpr hc)
        subst hval
        unfold sweepRecord
        by_cases hact : info.state ≠ NodeState.ACTIVE
        · rw [if_pos hact]
          have hb : info.failureCount ≤ 2 := hbound (id, info) (lookup_some_mem hlook)
          omega
        · rw [if_neg hact]
          by_cases hstale : nodeStale now timeout info.lastSeen
          · rw [if_pos hstale]
            have h3 : ¬ 3 ≤ info.failureCount + 1 := fun hge =>
              hncol ⟨not_not.mp hact, hstale, hge⟩
            show info.failureCount + 1 < 3
            omega
          · rw [if_neg hstale]
            show (0 : Nat) < 3
            decide

/-- Stale Active record with count 2 (one bump from removal). -/
def rec81 : NodeInfo :=
  { nodeID := 1, host := "peer", port := 9000, state := .ACTIVE,
    lastSeen := 0, joinTime := 0, failureCount := 2 }

/-- Stale Active record with count 0. -/
def rec82 : NodeInfo :=
  { nodeID := 2, host := "peer", port := 9000, state := .ACTIVE,
    lastSeen := 0, joinTime := 0, failureCount := 0 }

/-- Fresh Active record. -/
def rec83 : NodeInfo :=
  { nodeID := 3, host := "peer", port := 9000, state := .ACTIVE,
    lastSeen := 50, joinTime := 0, failureCount := 1 }

/-- A Leaving record, untouched by the sweep. -/
def rec84 : NodeInfo :=
  { nodeID := 4, host := "peer", port := 9000, state := .LEAVING,
    lastSeen := 0, joinTime := 0, failureCount := 2 }

def regEx8 : List (Nat × NodeInfo) := [(1, rec81), (2, rec82), (3, rec83), (4, rec84)]

/-- Witness for C8: all four per-record branches and the threshold invariant
at a concrete four-record registry, swept at time 100 with timeout 90. -/
theorem detectFailedNodes_spec_witness :
    List.lookup 1 (detectFailedNodes 100 90 regEx8).1 = none ∧
    1 ∈ (detectFailedNodes 100 90 regEx8).2 ∧
    List.lookup 2 (detectFailedNodes 100 90 regEx8).1 =
      some { rec82 with failureCount := 1 } ∧
    List.lookup 3 (detectFailedNodes 100 90 regEx8).1 =
      some { rec83 with failureCount := 0 } ∧
    List.lookup 4 (detectFailedNodes 100 90 regEx8).1 = some rec84 ∧
    rec84.failureCount < 3 := by
  have h := detectFailedNodes_spec 100 90 regEx8 (by decide)
  exact ⟨((h.1 1 rec81 (by decide)).1 (by decide)).1,
    ((h.1 1 rec81 (by decide)).1 (by decide)).2,
    ((h.1 2 rec82 (by decide)).2.1 (by decide) (by decide) (by decide)).1,
    ((h.1 3 rec83 (by decide)).2.2.1 (by decide) (by decide)).1,
    ((h.1 4 rec84 (by decide)).2.2.2 (by decide)).1,
    h.2.1 (by decide) 4 rec84 ((h.1 4 rec84 (by decide)).2.2.2 (by decide)).1⟩

/-! ### Claim C9: retry sweep and retry cap -/

/-- The `std::map` key-order invariant: strictly ascending keys. -/
def sortedKeys {α : Type} (m : List (Nat × α)) : Prop :=
  List.Pairwise (fun p q => p.1 < q.1) m

instance {α : Type} (m : List (Nat × α)) : Decidable (sortedKeys m) := by
  unfold sortedKeys
  infer_instance

theorem keys_nodup_of_sorted {α : Type} {m : List (Nat × α)} (h : sortedKeys m) :
    (m.map Prod.fst).Nodup := by
  induction m with
  | nil => simp
  | cons p rest ih =>
    simp only [sortedKeys, List.pairwise_cons] at h
    simp only [List.map_cons, List.nodup_cons]
    refine ⟨?_, ih h.2⟩
    intro hmem
    simp only [List.mem_map] at hmem
    obtain ⟨q, hq, hEq⟩ := hmem
    have := h.1 q hq
    omega

theorem mem_mapInsert {α : Type} {m : List (Nat × α)} {k : Nat} {v : α} {q : Nat × α}
    (h : q ∈ mapInsert m k v) : q = (k, v) ∨ q ∈ m := by
  induction m with
  | nil => simpa [mapInsert] using h
  | cons p rest ih =>
    obtain ⟨k2, v2⟩ := p
    by_cases h1 : k < k2
    · simp only [mapInsert, if_pos h1] at h
      rcases List.mem_cons.mp h with h2 | h2
      · exact Or.inl h2
      · exact Or.inr h2
    · by_cases h2 : k = k2
      · simp only [mapInsert, if_neg h1, if_pos h2] at h
        rcases List.mem_cons.mp h with h3 | h3
        · exact Or.inl h3
        · exact Or.inr (List.mem_cons_of_mem _ h3)
      · simp only [mapInsert, if_neg h1, if_neg h2] at h
        rcases List.mem_cons.mp h with h3 | h3
        · subst h3
          exact Or.inr (List.mem_cons_self _ _)
        · rcases ih h3 with h4 | h4
          · exact Or.inl h4
          · exact Or.inr (List.mem_cons_of_mem _ h4)

theorem sortedKeys_mapInsert {α : Type} {m : List (Nat × α)} (h : sortedKeys m)
    (k : Nat) (v : α) : sortedKeys (mapInsert m k v) := by
  induction m with
  | nil => simp [mapInsert, sortedKeys]
  | cons p rest ih =>
    obtain ⟨k2, v2⟩ := p
    simp only [sortedKeys, List.pairwise_cons] at h
    by_cases h1 : k < k2
    · simp only [mapInsert, if_pos h1]
      refine List.Pairwise.cons ?_ (List.Pairwise.cons h.1 h.2)
      intro q hq
      rcases List.mem_cons.mp hq with h2 | h2
      · subst h2
        exact h1
      · have := h.1 q h2
        omega
    · by_cases h2 : k = k2
      · simp only [mapInsert, if_neg h1, if_pos h2]
        refine List.Pairwise.cons ?_ h.2
        intro q hq
        have := h.1 q hq
        omega
      · simp only [mapInsert, if_neg h1, if_neg h2]
        refine List.Pairwise.cons ?_ (ih h.2)
        intro q hq
        rcases mem_mapInsert hq with h3 | h3
        · subst h3
          show k2 < k
          omega
        · exact h.1 q h3

theorem sortedKeys_mapErase {α : Type} {m : List (Nat × α)} (h : sortedKeys m)
    (k : Nat) : sortedKeys (mapErase m k) :=
  List.Pairwise.sublist (List.filter_sublist m) h

/-- Key membership in a key-filtered map, resolved through `lookup`. -/
theorem mem_filter_keys_iff {α : Type} {m : List (Nat × α)}
    (hnd : (m.map Prod.fst).Nodup) (P : α → Prop) [DecidablePred P] {k : Nat} {v : α}
    (h : List.lookup k m = some v) :
    (k ∈ (m.filter fun p => decide (P p.2)).map Prod.fst ↔ P v) := by
  constructor
  · intro hk
    simp only [List.mem_map, List.mem_filter] at hk
    obtain ⟨⟨k2, w⟩, ⟨hmem, hP⟩, rfl⟩ := hk
    have := value_eq_of_lookup_of_mem hnd h hmem
    subst this
    exact of_decide_eq_true hP
  · intro hP
    exact List.mem_map.mpr ⟨(k, v), List.mem_filter.mpr
      ⟨lookup_some_mem h, decide_eq_true hP⟩, rfl⟩

theorem retryFold (now : Nat) (ids : List Nat) :
    ∀ st : ReliableState, ids.Nodup →
      (∀ id ∈ ids, (List.lookup id st.pendingMessages).isSome) →
      (∀ mid, mid ∉ ids →
        List.lookup mid (ids.foldl (retryStep now) st).pendingMessages =
          List.lookup mid st.pendingMessages) ∧
      (∀ mid r, mid ∈ ids → List.lookup mid st.pendingMessages = some r →
        List.lookup mid (ids.foldl (retryStep now) st).pendingMessages =
          some { r with retryCount := r.retryCount + 1, lastRetry := now }) ∧
      (ids.foldl (retryStep now) st).resendEvents = st.resendEvents ++ ids ∧
      (ids.foldl (retryStep now) st).failedEvents = st.failedEvents ∧
      (sortedKeys st.pendingMessages →
        sortedKeys (ids.foldl (retryStep now) st).pendingMessages) := by
  induction ids with
  | nil =>
    intro st _ _
    exact ⟨fun _ _ => rfl, fun mid r hm => absurd hm (by simp), by simp, rfl, fun hs => hs⟩
  | cons id0 rest ih =>
    intro st hnd hfound
    simp only [List.nodup_cons] at hnd
    obtain ⟨r0, hr0⟩ := Option.isSome_iff_exists.mp (hfound id0 (by simp))
    have hstep : retryStep now st id0 =
        { st with
            pendingMessages := mapInsert st.pendingMessages id0
              { r0 with retryCount := r0.retryCount + 1, lastRetry := now }
            resendEvents := st.resendEvents ++ [id0] } := by
      unfold retryStep
      rw [hr0]
    have hfound1 : ∀ id ∈ rest, (List.lookup id (retryStep now st id0).pendingMessages).isSome := by
      intro id hid
      have hne : id ≠ id0 := fun hh => hnd.1 (hh ▸ hid)
      rw [hstep]
      show (List.lookup id (mapInsert st.pendingMessages id0 _)).isSome
      rw [lookup_mapInsert_ne _ _ _ _ hne]
      exact hfound id (by simp [hid])
    obtain ⟨ha, hb, hc, hd, he⟩ := ih (retryStep now st id0) hnd.2 hfound1
    rw [List.foldl_cons]
    refine ⟨?_, ?_, ?_, ?_, ?_⟩
    · intro mid hmid
      have hnr : mid ∉ rest := fun hh => hmid (by simp [hh])
      have hne : mid ≠ id0 := fun hh => hmid (by simp [hh])
      rw [ha mid hnr, hstep]
      show List.lookup mid (mapInsert st.pendingMessages id0 _) = _
      rw [lookup_mapInsert_ne _ _ _ _ hne]
    · intro mid r hmid hlook
      rcases List.mem_cons.mp hmid with hm1 | hm1
      · subst hm1
        have hr : r = r0 := by
          rw [hr0] at hlook
          exact (Option.some.injEq _ _ ▸ hlook.symm :)
        subst hr
        rw [ha mid hnd.1, hstep]
        show List.lookup mid (mapInsert st.pendingMessages mid _) = _
        exact lookup_mapInsert_self _ _ _
      · have hne : mid ≠ id0 := fun hh => hnd.1 (hh ▸ hm1)
        refine hb mid r hm1 ?_
        rw [hstep]
        show List.lookup mid (mapInsert st.pendingMessages id0 _) = _
        rw [lookup_mapInsert_ne _ _ _ _ hne]
        exact hlook
    · rw [hc, hstep]
      simp
    · rw [hd, hstep]
    · intro hs
      refine he ?_
      rw [hstep]
      exact sortedKeys_mapInsert hs _ _

theorem failFold (ids : List Nat) :
    ∀ st : ReliableState, ids.Nodup →
      (∀ id ∈ ids, (List.lookup id st.pendingMessages).isSome) →
      (∀ mid, mid ∉ ids →
        List.lookup mid (ids.foldl markMessageFailed st).pendingMessages =
          List.lookup mid st.pendingMessages) ∧
      (∀ mid, mid ∈ ids →
        List.lookup mid (ids.foldl markMessageFailed st).pendingMessages = none) ∧
      (∀ mid r, mid ∈ ids → List.lookup mid st.pendingMessages = some r →
        (mid, r.destinationID) ∈ (ids.foldl markMessageFailed st).failedEvents) ∧
      (∃ new : List (Nat × Nat),
        (ids.foldl markMessageFailed st).failedEvents = st.failedEvents ++ new ∧
        ∀ q ∈ new, q.1 ∈ ids) ∧
      (ids.foldl markMessageFailed st).resendEvents = st.resendEvents ∧
      (sortedKeys st.pendingMessages →
        sortedKeys (ids.foldl markMessageFailed st).pendingMessages) := by
  induction ids with
  | nil =>
    intro st _ _
    exact ⟨fun _ _ => rfl, fun mid hm => absurd hm (by simp),
      fun mid r hm => absurd hm (by simp), ⟨[], by simp⟩, rfl, fun hs => hs⟩
  | cons id0 rest ih =>
    intro st hnd hfound
    simp only [List.nodup_cons] at hnd
    obtain ⟨r0, hr0⟩ := Option.isSome_iff_exists.mp (hfound id0 (by simp))
    have hstep : markMessageFailed st id0 =
        { st with
            pendingMessages := mapErase st.pendingMessages id0
            failedMessages := st.failedMessages + 1
            failedEvents := st.failedEvents ++ [(id0, r0.destinationID)] } := by
      unfold markMessageFailed
      rw [hr0]
    have hfound1 : ∀ id ∈ rest,
        (List.lookup id (markMessageFailed st id0).pendingMessages).isSome := by
      intro id hid
      have hne : id ≠ id0 := fun hh => hnd.1 (hh ▸ hid)
      rw [hstep]
      show (List.lookup id (mapErase st.pendingMessages id0)).isSome
      rw [lookup_mapErase_ne _ _ _ hne]
      exact hfound id (by simp [hid])
    obtain ⟨ha, hb, hc, ⟨new1, hnew1, hnew1m⟩, hd, he⟩ :=
      ih (markMessageFailed st id0) hnd.2 hfound1
    rw [List.foldl_cons]
    refine ⟨?_, ?_, ?_, ?_, ?_, ?_⟩
    · intro mid hmid
      have hnr : mid ∉ rest := fun hh => hmid (by simp [hh])
      have hne : mid ≠ id0 := fun hh => hmid (by simp [hh])
      rw [ha mid hnr, hstep]
      show List.lookup mid (mapErase st.pendingMessages id0) = _
      rw [lookup_mapErase_ne _ _ _ hne]
    · intro mid hmid
      rcases List.mem_cons.mp hmid with hm1 | hm1
      · subst hm1
        rw [ha mid hnd.1, hstep]
        show List.lookup mid (mapErase st.pendingMessages mid) = none
        exact lookup_mapErase_self _ _
      · exact hb mid hm1
    · intro mid r hmid hlook
      rcases List.mem_cons.mp hmid with hm1 | hm1
      · subst hm1
        have hr : r = r0 := by
          rw [hr0] at hlook
          exact (Option.some.injEq _ _ ▸ hlook.symm :)
        subst hr
        rw [hnew1, hstep]
        show (mid, r.destinationID) ∈ (st.failedEvents ++ [(mid, r.destinationID)]) ++ new1
        simp
      · have hne : mid ≠ id0 := fun hh => hnd.1 (hh ▸ hm1)
        refine hc mid r hm1 ?_
        rw [hstep]
        show List.lookup mid (mapErase st.pendingMessages id0) = _
        rw [lookup_mapErase_ne _ _ _ hne]
        exact hlook
    · refine ⟨(id0, r0.destinationID) :: new1, ?_, ?_⟩
      · rw [hnew1, hstep]
        simp
      · intro q hq
        rcases List.mem_cons.mp hq with h1 | h1
        · subst h1
          simp
        · exact List.mem_cons_of_mem _ (hnew1m q h1)
    · rw [hd, hstep]
    · intro hs
      refine he ?_
      rw [hstep]
      exact sortedKeys_mapErase hs _

/-- Everything one retry sweep does to a given id, plus preservation of the
map invariant. -/
theorem retrySweepCore (st : ReliableState) (now timeout maxRetries : Nat)
    (hs : sortedKeys st.pendingMessages) :
    (∀ mid r, List.lookup mid st.pendingMessages = some r →
      (retryCond now timeout maxRetries r →
        List.lookup mid (retryPendingMessages st now timeout maxRetries).pendingMessages =
          some { r with retryCount := r.retryCount + 1, lastRetry := now } ∧
        (retryPendingMessages st now timeout maxRetries).resendEvents.count mid =
          st.resendEvents.count mid + 1) ∧
      (failCond now timeout maxRetries r →
        List.lookup mid (retryPendingMessages st now timeout maxRetries).pendingMessages =
          none ∧
        (mid, r.destinationID) ∈
          (retryPendingMessages st now timeout maxRetries).failedEvents ∧
        (retryPendingMessages st now timeout maxRetries).resendEvents.count mid =
          st.resendEvents.count mid) ∧
      (¬ (r.ackStatus ≠ .ACKNOWLEDGED ∧ retryDue now timeout r.lastRetry) →
        List.lookup mid (retryPendingMessages st now timeout maxRetries).pendingMessages =
          some r ∧
        (retryPendingMessages st now timeout maxRetries).resendEvents.count mid =
          st.resendEvents.count mid ∧
        (∀ d, (mid, d) ∈ (retryPendingMessages st now timeout maxRetries).failedEvents ↔
          (mid, d) ∈ st.failedEvents))) ∧
    (∀ mid, List.lookup mid st.pendingMessages = none →
      List.lookup mid (retryPendingMessages st now timeout maxRetries).pendingMessages =
        none ∧
      (retryPendingMessages st now timeout maxRetries).resendEvents.count mid =
        st.resendEvents.count mid) ∧
    sortedKeys (retryPendingMessages st now timeout maxRetries).pendingMessages := by
  have hnd := keys_nodup_of_sorted hs
  have hres : retryPendingMessages st now timeout maxRetries =
      ((st.pendingMessages.filter fun p =>
          decide (failCond now timeout maxRetries p.2)).map Prod.fst).foldl
        markMessageFailed
        (((st.pendingMessages.filter fun p =>
            decide (retryCond now timeout maxRetries p.2)).map Prod.fst).foldl
          (retryStep now) st) := rfl
  have hTRnd : ((st.pendingMessages.filter fun p =>
      decide (retryCond now timeout maxRetries p.2)).map Prod.fst).Nodup :=
    hnd.sublist ((List.filter_sublist _).map Prod.fst)
  have hTFnd : ((st.pendingMessages.filter fun p =>
      decide (failCond now timeout maxRetries p.2)).map Prod.fst).Nodup :=
    hnd.sublist ((List.filter_sublist _).map Prod.fst)
  have hTRfound : ∀ id ∈ (st.pendingMessages.filter fun p =>
      decide (retryCond now timeout maxRetries p.2)).map Prod.fst,
      (List.lookup id st.pendingMessages).isSome := by
    intro id hid
    simp only [List.mem_map, List.mem_filter] at hid
    obtain ⟨⟨k, w⟩, ⟨hmem, _⟩, rfl⟩ := hid
    exact lookup_isSome_of_mem hmem
  obtain ⟨ra, rb, rc, rd, re⟩ := retryFold now _ st hTRnd hTRfound
  have hdisj : ∀ id ∈ (st.pendingMessages.filter fun p =>
      decide (failCond now timeout maxRetries p.2)).map Prod.fst,
      id ∉ (st.pendingMessages.filter fun p =>
        decide (retryCond now timeout maxRetries p.2)).map Prod.fst := by
    intro id hidF hidR
    simp only [List.mem_map, List.mem_filter] at hidF
    obtain ⟨⟨k, w⟩, ⟨hmem, hF⟩, rfl⟩ := hidF
    have hlook : List.lookup k st.pendingMessages = some w := by
      obtain ⟨u, hu⟩ := Option.isSome_iff_exists.mp (lookup_isSome_of_mem hmem)
      have := value_eq_of_lookup_of_mem hnd hu hmem
      rw [hu, this]
    have hR := (mem_filter_keys_iff hnd
      (retryCond now timeout maxRetries) hlook).mp hidR
    have hF' := of_decide_eq_true hF
    exact absurd hR.2.2 hF'.2.2
  have hTFfound1 : ∀ id ∈ (st.pendingMessages.filter fun p =>
      decide (failCond now timeout maxRetries p.2)).map Prod.fst,
      (List.lookup id (((st.pendingMessages.filter fun p =>
        decide (retryCond now timeout maxRetries p.2)).map Prod.fst).foldl
          (retryStep now) st).pendingMessages).isSome := by
    intro id hid
    rw [ra id (hdisj id hid)]
    simp only [List.mem_map, List.mem_filter] at hid
    obtain ⟨⟨k, w⟩, ⟨hmem, _⟩, rfl⟩ := hid
    exact lookup_isSome_of_mem hmem
  obtain ⟨fa, fb, fc, ⟨new, hnew, hnewm⟩, fd, fe⟩ :=
    failFold _ _ hTFnd hTFfound1
  have hresend : (retryPendingMessages st now timeout maxRetries).resendEvents =
      st.resendEvents ++ (st.pendingMessages.filter fun p =>
        decide (retryCond now timeout maxRetries p.2)).map Prod.fst := by
    rw [hres, fd, rc]
  refine ⟨?_, ?_, ?_⟩
  · intro mid r hlook
    have hmemR := mem_filter_keys_iff hnd (retryCond now timeout maxRetries) hlook
    have hmemF := mem_filter_keys_iff hnd (failCond now timeout maxRetries) hlook
    refine ⟨?_, ?_, ?_⟩
    · intro hcond
      have hinR : mid ∈ _ := hmemR.mpr hcond
      have hninF : mid ∉ (st.pendingMessages.filter fun p =>
          decide (failCond now timeout maxRetries p.2)).map Prod.fst := by
        intro hinF
        exact absurd hcond.2.2 (hmemF.mp hinF).2.2
      constructor
      · rw [hres, fa mid hninF]
        exact rb mid r hinR hlook
      · rw [hresend, List.count_append]
        have h1 : List.count mid ((st.pendingMessages.filter fun p =>
            decide (retryCond now timeout maxRetries p.2)).map Prod.fst) = 1 :=
          List.count_eq_one_of_mem hTRnd hinR
        omega
    · intro hcond
      have hinF : mid ∈ _ := hmemF.mpr hcond
      have hninR : mid ∉ (st.pendingMessages.filter fun p =>
          decide (retryCond now timeout maxRetries p.2)).map Prod.fst := by
        intro hinR
        exact absurd (hmemR.mp hinR).2.2 hcond.2.2
      refine ⟨?_, ?_, ?_⟩
      · rw [hres]
        exact fb mid hinF
      · rw [hres]
        refine fc mid r hinF ?_
        rw [ra mid hninR]
        exact hlook
      · rw [hresend, List.count_append]
        have h0 : List.count mid ((st.pendingMessages.filter fun p =>
            decide (retryCond now timeout maxRetries p.2)).map Prod.fst) = 0 :=
          List.count_eq_zero_of_not_mem hninR
        omega
    · intro hcond
      have hninR : mid ∉ (st.pendingMessages.filter fun p =>
          decide (retryCond now timeout maxRetries p.2)).map Prod.fst := by
        intro hinR
        have hc := hmemR.mp hinR
        exact hcond ⟨hc.1, hc.2.1⟩
      have hninF : mid ∉ (st.pendingMessages.filter fun p =>
          decide (failCond now timeout maxRetries p.2)).map Prod.fst := by
        intro hinF
        have hc := hmemF.mp hinF
        exact hcond ⟨hc.1, hc.2.1⟩
      refine ⟨?_, ?_, ?_⟩
      · rw [hres, fa mid hninF, ra mid hninR]
        exact hlook
      · rw [hresend, List.count_append]
        have h0 : List.count mid ((st.pendingMessages.filter fun p =>
            decide (retryCond now timeout maxRetries p.2)).map Prod.fst) = 0 :=
          List.count_eq_zero_of_not_mem hninR
        omega
      · intro d
        have hfe : (retryPendingMessages st now timeout maxRetries).failedEvents =
            st.failedEvents ++ new := by
          rw [hres, hnew, rd]
        rw [hfe]
        simp only [List.mem_append]
        constructor
        · intro hcase
          rcases hcase with h1 | h1
          · exact h1
          · exact absurd (hnewm (mid, d) h1) hninF
        · exact Or.inl
  · intro mid hlook
    have hninR : mid ∉ (st.pendingMessages.filter fun p =>
        decide (retryCond now timeout maxRetries p.2)).map Prod.fst := by
      intro hinR
      have := hTRfound mid hinR
      rw [hlook] at this
      simp at this
    have hninF : mid ∉ (st.pendingMessages.filter fun p =>
        decide (failCond now timeout maxRetries p.2)).map Prod.fst := by
      intro hinF
      simp only [List.mem_map, List.mem_filter] at hinF
      obtain ⟨⟨k, w⟩, ⟨hmem, _⟩, rfl⟩ := hinF
      have := lookup_isSome_of_mem hmem
      rw [hlook] at this
      simp at this
    constructor
    · rw [hres, fa mid hninF, ra mid hninR]
      exact hlook
    · rw [hresend, List.count_append]
      have h0 : List.count mid ((st.pendingMessages.filter fun p =>
          decide (retryCond now timeout maxRetries p.2)).map Prod.fst) = 0 :=
        List.count_eq_zero_of_not_mem hninR
      omega
  · rw [hres]
    exact fe (re hs)

/-- Across any sequence of sweeps, the number of re-sends of a message never
exceeds its remaining retry budget; absent ids are never re-sent. -/
theorem runSweeps_count_aux (maxRetries : Nat) (params : List (Nat × Nat)) :
    ∀ (st : ReliableState) (mid : Nat), sortedKeys st.pendingMessages →
      (∀ r, List.lookup mid st.pendingMessages = some r →
        r.retryCount ≤ maxRetries →
        (runRetrySweeps maxRetries params st).resendEvents.count mid ≤
          st.resendEvents.count mid + (maxRetries - r.retryCount)) ∧
      (List.lookup mid st.pendingMessages = none →
        (runRetrySweeps maxRetries params st).resendEvents.count mid =
          st.resendEvents.count mid) := by
  induction params with
  | nil =>
    intro st mid _
    exact ⟨fun r _ _ => Nat.le_add_right _ _, fun _ => rfl⟩
  | cons p ps ih =>
    intro st mid hs
    obtain ⟨core1, core2, core3⟩ := retrySweepCore st p.1 p.2 maxRetries hs
    have hrun : runRetrySweeps maxRetries (p :: ps) st =
        runRetrySweeps maxRetries ps (retryPendingMessages st p.1 p.2 maxRetries) := by
      unfold runRetrySweeps
      rw [List.foldl_cons]
    constructor
    · intro r hlook hbud
      by_cases hAck : r.ackStatus ≠ .ACKNOWLEDGED ∧ retryDue p.1 p.2 r.lastRetry
      · by_cases hcnt : r.retryCount < maxRetries
        · obtain ⟨l1, c1⟩ := (core1 mid r hlook).1 ⟨hAck.1, hAck.2, hcnt⟩
          have hb2 : ({ r with retryCount := r.retryCount + 1, lastRetry := p.1 } : ReliableMessage).retryCount ≤ maxRetries := by
            show r.retryCount + 1 ≤ maxRetries
            omega
          have hrec := (ih (retryPendingMessages st p.1 p.2 maxRetries) mid core3).1
            _ l1 hb2
          have hb3 : ({ r with retryCount := r.retryCount + 1, lastRetry := p.1 } : ReliableMessage).retryCount = r.retryCount + 1 := rfl
          rw [hb3] at hrec
          rw [hrun]
          omega
        · obtain ⟨l1, _, c1⟩ := (core1 mid r hlook).2.1 ⟨hAck.1, hAck.2, hcnt⟩
          have hrec := (ih (retryPendingMessages st p.1 p.2 maxRetries) mid core3).2 l1
          rw [hrun]
          omega
      · obtain ⟨l1, c1, _⟩ := (core1 mid r hlook).2.2 hAck
        have hrec := (ih (retryPendingMessages st p.1 p.2 maxRetries) mid core3).1
          r l1 hbud
        rw [hrun]
        omega
    · intro hlook
      obtain ⟨l1, c1⟩ := core2 mid hlook
      have hrec := (ih (retryPendingMessages st p.1 p.2 maxRetries) mid core3).2 l1
      rw [hrun]
      omega

/-- Claim C9: one retry sweep considers exactly the non-acknowledged records
whose `now - lastRetry` is at least `timeout`: those under the retry budget
are re-sent once with `retryCount` bumped and `lastRetry` refreshed, those at
the budget transition to Failed (callback with the destination) and are
dropped, and everything else is untouched; consequently, across any sequence
of sweeps, a message starting at `retryCount = 0` is re-sent at most
`maxRetries` times. -/
theorem retryPendingMessages_spec (st : ReliableState) (now timeout maxRetries : Nat)
    (hs : sortedKeys st.pendingMessages) :
    (∀ mid r, List.lookup mid st.pendingMessages = some r →
      (retryCond now timeout maxRetries r →
        List.lookup mid (retryPendingMessages st now timeout maxRetries).pendingMessages =
          some { r with retryCount := r.retryCount + 1, lastRetry := now } ∧
        (retryPendingMessages st now timeout maxRetries).resendEvents.count mid =
          st.resendEvents.count mid + 1) ∧
      (failCond now timeout maxRetries r →
        List.lookup mid (retryPendingMessages st now timeout maxRetries).pendingMessages =
          none ∧
        (mid, r.destinationID) ∈
          (retryPendingMessages st now timeout maxRetries).failedEvents ∧
        (retryPendingMessages st now timeout maxRetries).resendEvents.count mid =
          st.resendEvents.count mid) ∧
      (¬ (r.ackStatus ≠ .ACKNOWLEDGED ∧ retryDue now timeout r.lastRetry) →
        List.lookup mid (retryPendingMessages st now timeout maxRetries).pendingMessages =
          some r ∧
        (retryPendingMessages st now timeout maxRetries).resendEvents.count mid =
          st.resendEvents.count mid ∧
        (∀ d, (mid, d) ∈ (retryPendingMessages st now timeout maxRetries).failedEvents ↔
          (mid, d) ∈ st.failedEvents))) ∧
    (∀ params : List (Nat × Nat), ∀ mid r,
      List.lookup mid st.pendingMessages = some r → r.retryCount = 0 →
      (runRetrySweeps maxRetries params st).resendEvents.count mid ≤
        st.resendEvents.count mid + maxRetries) := by
  refine ⟨(retrySweepCore st now timeout maxRetries hs).1, ?_⟩
  intro params mid r hlook h0
  have := (runSweeps_count_aux maxRetries params st mid hs).1 r hlook (by omega)
  omega

/-- Stale Pending record with budget left. -/
def rec91 : ReliableMessage :=
  { messageID := 1,
    message := { type := 5, senderID := 9, receiverID := 4, payload := [7], timestamp := 0 },
    destinationID := 4, ackStatus := .PENDING, retryCount := 0,
    sendTime := 0, lastRetry := 0 }

/-- Stale Pending record out of budget. -/
def rec92 : ReliableMessage :=
  { messageID := 2,
    message := { type := 5, senderID := 9, receiverID := 6, payload := [], timestamp := 0 },
    destinationID := 6, ackStatus := .PENDING, retryCount := 3,
    sendTime := 0, lastRetry := 0 }

/-- Acknowledged record, skipped by the sweep. -/
def rec93 : ReliableMessage :=
  { messageID := 3,
    message := { type := 5, senderID := 9, receiverID := 8, payload := [], timestamp := 0 },
    destinationID := 8, ackStatus := .ACKNOWLEDGED, retryCount := 1,
    sendTime := 0, lastRetry := 0 }

def retrySt9 : ReliableState :=
  { pendingMessages := [(1, rec91), (2, rec92), (3, rec93)],
    acknowledgedMessages := 0, failedMessages := 0,
    deliveredEvents := [], failedEvents := [], resendEvents := [] }

/-- Witness for C9: all three sweep branches and the retry cap at a concrete
three-record table, swept at time 40 with timeout 30 and 3 max retries. -/
theorem retryPendingMessages_spec_witness :
    List.lookup 1 (retryPendingMessages retrySt9 40 30 3).pendingMessages =
      some { rec91 with retryCount := 1, lastRetry := 40 } ∧
    List.lookup 2 (retryPendingMessages retrySt9 40 30 3).pendingMessages = none ∧
    (2, rec92.destinationID) ∈ (retryPendingMessages retrySt9 40 30 3).failedEvents ∧
    List.lookup 3 (retryPendingMessages retrySt9 40 30 3).pendingMessages = some rec93 ∧
    (runRetrySweeps 3 [(40, 30)] retrySt9).resendEvents.count 1 ≤ 3 := by
  have h := retryPendingMessages_spec retrySt9 40 30 3 (by decide)
  refine ⟨?_, ?_, ?_, ?_, ?_⟩
  · exact ((h.1 1 rec91 (by decide)).1 (by decide)).1
  · exact ((h.1 2 rec92 (by decide)).2.1 (by decide)).1
  · exact ((h.1 2 rec92 (by decide)).2.1 (by decide)).2.1
  · exact ((h.1 3 rec93 (by decide)).2.2 (by decide)).1
  · have hcap := h.2 [(40, 30)] 1 rec91 (by decide) (by decide)
    simpa using hcap

/-! ### Claim C2: chunk split / reassembly -/

/-- The chunk list of `splitData` as the receiver's sequence-number map. -/
theorem buildChunkMap_splitData (cs : Nat) (B : List Nat) (tid : Nat) :
    buildChunkMap (splitData cs B tid) =
      (splitData cs B tid).map fun c => (c.sequenceNumber, c) := by
  unfold buildChunkMap splitData
  rw [← List.foldl_map (fun c : DataChunk => (c.sequenceNumber, c))
        (fun mm p => mapInsert mm p.1 p.2)]
  rw [foldl_mapInsert_ascending _ [] ?_ (by simp)]
  · simp
  · rw [List.map_map]
    refine List.Pairwise.map _ ?_ (List.pairwise_lt_range _)
    intro i j hij
    simpa using hij

/-- When the ceiling count fits in 32 bits the cast is the identity and the
chunk list has its plain closed form. -/
theorem splitData_fit (cs : Nat) (B : List Nat) (tid : Nat)
    (hfit : (B.length + cs - 1) / cs < 2 ^ 32) :
    splitData cs B tid =
      (List.range ((B.length + cs - 1) / cs)).map fun i =>
        { chunkID := tid, sequenceNumber := i,
          totalChunks := (B.length + cs - 1) / cs,
          isLastChunk := decide (i = (B.length + cs - 1) / cs - 1),
          data := (B.drop (i * cs)).take (min cs (B.length - i * cs)) } := by
  simp only [splitData]
  rw [Nat.mod_eq_of_lt hfit]

theorem collect_splitData (cs : Nat) (B : List Nat) (tid : Nat) (_hcs : 0 < cs)
    (hfit : (B.length + cs - 1) / cs < 2 ^ 32) :
    ∀ n, n ≤ (B.length + cs - 1) / cs →
      collectChunks ((splitData cs B tid).map fun c => (c.sequenceNumber, c)) n =
        some (B.take (n * cs)) := by
  intro n
  induction n with
  | zero => intro _; simp [collectChunks]
  | succ n ih =>
    intro hn
    have hlook : List.lookup n ((splitData cs B tid).map fun c => (c.sequenceNumber, c)) =
        some { chunkID := tid, sequenceNumber := n,
               totalChunks := (B.length + cs - 1) / cs,
               isLastChunk := decide (n = (B.length + cs - 1) / cs - 1),
               data := (B.drop (n * cs)).take (min cs (B.length - n * cs)) } := by
      rw [splitData_fit cs B tid hfit]
      rw [List.map_map]
      exact lookup_range_map _ _ n (by omega)
    have hdata : (B.drop (n * cs)).take (min cs (B.length - n * cs)) =
        (B.drop (n * cs)).take cs := by
      have hlen : (B.drop (n * cs)).length = B.length - n * cs := by simp
      rw [← hlen, take_min_length]
    rw [collectChunks, ih (by omega), hlook]
    simp only [hdata, Option.some.injEq]
    rw [Nat.succ_mul, List.take_add]

/-- Ceiling division by a positive chunk size covers the whole payload. -/
theorem length_le_chunkCount_mul (len cs : Nat) (hcs : 0 < cs) :
    len ≤ (len + cs - 1) / cs * cs := by
  rcases len with _ | m
  · simp
  · have hdiv : (m + 1 + cs - 1) / cs = m / cs + 1 := by
      have : m + 1 + cs - 1 = m + cs := by omega
      rw [this, Nat.add_div_right m hcs]
    rw [hdiv]
    have hmod : m / cs * cs + m % cs = m := Nat.div_add_mod' m cs
    have hlt : m % cs < cs := Nat.mod_lt m hcs
    rw [Nat.succ_mul]
    omega

/-- Claim C2 (amended): for chunk size `cs > 0` and a payload whose ceiling
chunk count fits the `uint32_t` cast (the code computes
`static_cast<uint32_t>((totalSize + cs - 1) / cs)`, which wraps mod `2^32`
otherwise), `splitData` produces exactly `⌈|B|/cs⌉` chunks, chunk `i` carries
bytes `B[i*cs .. min((i+1)*cs, |B|))`, every chunk advertises the same
`totalChunks` and the transfer id, exactly the chunk with sequence number
`totalChunks - 1` is flagged last, and for a NONEMPTY payload reassembling
the produced chunks yields exactly `B`.  (For `B = []` no chunks are produced
and `reassembleData` reports failure instead of producing the empty payload;
see the counterexample, which also exhibits the mod-`2^32` wrap.) -/
theorem splitData_reassemble_spec (cs : Nat) (B : List Nat) (tid : Nat)
    (hcs : 0 < cs) (hfit : (B.length + cs - 1) / cs < 2 ^ 32) :
    (splitData cs B tid).length = (B.length + cs - 1) / cs ∧
    (∀ c ∈ splitData cs B tid,
        c.totalChunks = (B.length + cs - 1) / cs ∧ c.chunkID = tid) ∧
    (∀ i, ∀ hh : i < (splitData cs B tid).length,
        ((splitData cs B tid).get ⟨i, hh⟩).sequenceNumber = i ∧
        (((splitData cs B tid).get ⟨i, hh⟩).isLastChunk = true ↔
          i = (splitData cs B tid).length - 1) ∧
        ((splitData cs B tid).get ⟨i, hh⟩).data = (B.drop (i * cs)).take cs) ∧
    (B ≠ [] → reassembleData (buildChunkMap (splitData cs B tid)) = some B) := by
  have hlen : (splitData cs B tid).length = (B.length + cs - 1) / cs := by
    rw [splitData_fit cs B tid hfit]
    simp
  refine ⟨hlen, ?_, ?_, ?_⟩
  · intro c hc
    rw [splitData_fit cs B tid hfit] at hc
    simp only [List.mem_map, List.mem_range] at hc
    obtain ⟨i, _, rfl⟩ := hc
    exact ⟨rfl, rfl⟩
  · intro i hh
    have hi : i < (B.length + cs - 1) / cs := by rw [← hlen]; exact hh
    have hget : (splitData cs B tid).get ⟨i, hh⟩ =
        { chunkID := tid, sequenceNumber := i,
          totalChunks := (B.length + cs - 1) / cs,
          isLastChunk := decide (i = (B.length + cs - 1) / cs - 1),
          data := (B.drop (i * cs)).take (min cs (B.length - i * cs)) } := by
      have he : (splitData cs B tid).get? i =
          some { chunkID := tid, sequenceNumber := i,
                 totalChunks := (B.length + cs - 1) / cs,
                 isLastChunk := decide (i = (B.length + cs - 1) / cs - 1),
                 data := (B.drop (i * cs)).take (min cs (B.length - i * cs)) } := by
        rw [splitData_fit cs B tid hfit]
        simp [List.get?_map, List.get?_range, hi]
      have h2 : (splitData cs B tid).get? i = some ((splitData cs B tid).get ⟨i, hh⟩) :=
        List.get?_eq_get hh
      rw [he] at h2
      exact (Option.some.injEq _ _ ▸ h2).symm
    rw [hget]
    refine ⟨rfl, ?_, ?_⟩
    · rw [hlen]
      simp
    · have hl : (B.drop (i * cs)).length = B.length - i * cs := by simp
      show (B.drop (i * cs)).take (min cs (B.length - i * cs)) = _
      rw [← hl, take_min_length]
  · intro hB
    have hpos : 0 < B.length := List.length_pos.mpr hB
    have hcc : 0 < (B.length + cs - 1) / cs := Nat.div_pos (by omega) hcs
    rw [buildChunkMap_splitData]
    have hne : (splitData cs B tid).map (fun c => (c.sequenceNumber, c)) ≠ [] := by
      simp only [ne_eq, List.map_eq_nil_iff]
      intro hnil
      rw [← List.length_eq_zero, hlen] at hnil
      omega
    obtain ⟨⟨s0, c0⟩, rest, hsplit⟩ := List.exists_cons_of_ne_nil hne
    have htot : c0.totalChunks = (B.length + cs - 1) / cs := by
      have hmem : (s0, c0) ∈ (splitData cs B tid).map fun c => (c.sequenceNumber, c) := by
        rw [hsplit]; simp
      simp only [List.mem_map] at hmem
      obtain ⟨c, hc, hpair⟩ := hmem
      rw [splitData_fit cs B tid hfit] at hc
      simp only [List.mem_map, List.mem_range] at hc
      obtain ⟨j, _, rfl⟩ := hc
      have : c0 = _ := (Prod.mk.injEq _ _ _ _ ▸ hpair).2.symm
      rw [this]
    have hmaplen : ((splitData cs B tid).map fun c => (c.sequenceNumber, c)).length =
        (B.length + cs - 1) / cs := by
      rw [List.length_map, hlen]
    have hlen2 : ((s0, c0) :: rest).length = (B.length + cs - 1) / cs := by
      rw [← hsplit]
      exact hmaplen
    have hcollect := collect_splitData cs B tid hcs hfit ((B.length + cs - 1) / cs) le_rfl
    have hfull : B.take ((B.length + cs - 1) / cs * cs) = B :=
      List.take_of_length_le (length_le_chunkCount_mul B.length cs hcs)
    rw [hsplit] at hcollect ⊢
    show (if ((s0, c0) :: rest).length < c0.totalChunks then none
          else collectChunks ((s0, c0) :: rest) c0.totalChunks) = some B
    rw [if_neg (by omega : ¬ ((s0, c0) :: rest).length < c0.totalChunks)]
    rw [htot, hcollect, hfull]

/-- Counterexample to claim C2 as stated: for the empty byte sequence and
chunk size 1 the split produces no chunks and reassembly reports failure
(`none`), so the round trip does not return the empty payload.  Moreover the
claimed chunk count `⌈|B|/cs⌉` fails without a size bound: the `uint32_t`
cast wraps, so a `2^32`-byte payload at chunk size 1 yields zero chunks. -/
theorem splitData_roundtrip_counterexample :
    0 < 1 ∧ splitData 1 [] 0 = [] ∧
    reassembleData (buildChunkMap (splitData 1 [] 0)) = none ∧
    reassembleData (buildChunkMap (splitData 1 [] 0)) ≠ some [] ∧
    splitData 1 (List.replicate (2 ^ 32) 0) 0 = [] := by
  refine ⟨Nat.one_pos, by decide, by decide, by decide, ?_⟩
  simp only [splitData, List.length_replicate, Nat.add_sub_cancel, Nat.div_one,
    Nat.mod_self, List.range_zero, List.map_nil]

/-- Witness for C2: a 3-byte payload with chunk size 2 round-trips (its chunk
count 2 fits 32 bits). -/
theorem splitData_reassemble_spec_witness :
    (0:Nat) < 2 ∧ (([1, 2, 3] : List Nat).length + 2 - 1) / 2 < 2 ^ 32 ∧
    ([1, 2, 3] : List Nat) ≠ [] ∧
    reassembleData (buildChunkMap (splitData 2 [1, 2, 3] 5)) = some [1, 2, 3] := by
  refine ⟨by decide, by decide, by decide, ?_⟩
  exact (splitData_reassemble_spec 2 [1, 2, 3] 5 (by decide) (by decide)).2.2.2 (by decide)

/-! ### Claim C10: node-list serialization round trip -/

theorem flatten_leBytes_length (L : List Nat) :
    ((L.map (leBytes 8)).flatten).length = 8 * L.length := by
  induction L with
  | nil => simp
  | cons x rest ih =>
    simp only [List.map_cons, List.flatten_cons, List.length_append, ih,
      leBytes_length, List.length_cons]
    ring

theorem flatten_leBytes_extract (L : List Nat) :
    ∀ i, i < L.length →
      (((L.map (leBytes 8)).flatten).drop (i * 8)).take 8 = leBytes 8 (L.getD i 0) := by
  induction L with
  | nil => intro i h; simp at h
  | cons x rest ih =>
    intro i h
    cases i with
    | zero =>
      simp only [Nat.zero_mul, List.drop_zero, List.map_cons, List.flatten_cons]
      rw [List.take_append_of_le_length (by rw [leBytes_length]),
        List.take_of_length_le (by rw [leBytes_length])]
      rfl
    | succ n =>
      simp only [List.map_cons, List.flatten_cons]
      have harith : (n + 1) * 8 = (leBytes 8 x).length + n * 8 := by
        rw [leBytes_length]; ring
      rw [harith, List.drop_append, List.getD_cons_succ]
      exact ih n (by simpa using h)

/-- Claim C10: the node-list encoding round-trips for any id list whose
length fits in 32 bits (ids being 64-bit values), and `deserializeNodeList`
returns the empty list both on a buffer shorter than 4 bytes and on one
shorter than the `4 + count * 8` bytes its declared count requires. -/
theorem nodeList_roundtrip_spec :
    (∀ L : List Nat, L.length < 2 ^ 32 → (∀ id ∈ L, id < 2 ^ 64) →
      deserializeNodeList (serializeNodeList L) = L) ∧
    (∀ data : List Nat, data.length < 4 → deserializeNodeList data = []) ∧
    (∀ data : List Nat, 4 ≤ data.length →
      data.length < 4 + leValue (data.take 4) * 8 → deserializeNodeList data = []) := by
  refine ⟨?_, ?_, ?_⟩
  · intro L hlen hids
    have hcount : L.length % 2 ^ 32 = L.length := Nat.mod_eq_of_lt hlen
    have hser : serializeNodeList L = leBytes 4 L.length ++ (L.map (leBytes 8)).flatten := by
      unfold serializeNodeList
      rw [hcount]
      simp only [List.take_length]
    have hdlen : (serializeNodeList L).length = 4 + 8 * L.length := by
      rw [hser, List.length_append, leBytes_length, flatten_leBytes_length]
    have htake4 : (serializeNodeList L).take 4 = leBytes 4 L.length := by
      rw [hser, List.take_append_of_le_length (by rw [leBytes_length]),
        List.take_of_length_le (by rw [leBytes_length])]
    have hval : leValue ((serializeNodeList L).take 4) = L.length := by
      rw [htake4]
      exact leValue_leBytes_of_lt (by norm_num at hlen ⊢; omega)
    unfold deserializeNodeList
    rw [if_neg (by omega), hval, if_neg (by omega)]
    refine List.ext_getElem (by simp) ?_
    intro i h1 h2
    simp only [List.getElem_map, List.getElem_range]
    have hiL : i < L.length := by simpa using h2
    have hdrop : (serializeNodeList L).drop (4 + i * 8) =
        ((L.map (leBytes 8)).flatten).drop (i * 8) := by
      rw [hser]
      have : 4 + i * 8 = (leBytes 4 L.length).length + i * 8 := by rw [leBytes_length]
      rw [this, List.drop_append]
    rw [hdrop, flatten_leBytes_extract L i hiL]
    rw [List.getD_eq_getElem L 0 hiL]
    exact leValue_leBytes_of_lt (by exact_mod_cast hids _ (List.getElem_mem hiL))
  · intro data h
    unfold deserializeNodeList
    rw [if_pos h]
  · intro data h1 h2
    unfold deserializeNodeList
    rw [if_neg (by omega)]
    simp only []
    rw [if_pos h2]

/-- Witness for C10: a concrete two-id list round-trips, a 3-byte buffer
deserializes to the empty list, and a buffer whose declared count exceeds its
actual size deserializes to the empty list. -/
theorem nodeList_roundtrip_spec_witness :
    deserializeNodeList (serializeNodeList [7, 2 ^ 63]) = [7, 2 ^ 63] ∧
    deserializeNodeList [1, 2, 3] = [] ∧
    deserializeNodeList [5, 0, 0, 0, 9] = [] := by
  refine ⟨nodeList_roundtrip_spec.1 [7, 2 ^ 63] (by norm_num) (by decide),
    nodeList_roundtrip_spec.2.1 [1, 2, 3] (by decide),
    nodeList_roundtrip_spec.2.2 [5, 0, 0, 0, 9] (by decide) (by decide)⟩

end P2P
